import Mathlib

/-!
Verification of the RS_codes repository: a Reed-Solomon RS(15,11) codec over
GF(2^4) for DNA storage, with sequence chunking and a parallel block pipeline.

The repository's own sources provide the `dna_storage` wrapper
(`RS_codes_for_DNAStorage_schifra/include/schifra/dna_storage.hpp`), the
chunking / pipeline drivers (`split_into_blocks`, `pad_block`,
`remove_padding`, `introduce_errors`, `process_dna_sequence`,
`process_dna_sequence_parallel`, `process_dna_sequence_benchmark`) and the
CUDA placeholder kernels (`dna_storage_cuda.cu`).  The vendored schifra
Reed-Solomon core (Galois field, generator polynomial, encoder, decoder) is
not part of the sources; those components are modelled from the spec
(sections 4.2-4.5) and are marked `Modelled from the spec` below.
-/

namespace RSDna

/-! ## Galois field GF(2^4) engine

Modelled from the spec (section 4.2): the schifra `galois::field` sources are
not in the repository.  Arithmetic over GF(16) with the standard primitive
polynomial x^4 + x + 1 (alpha = 2), via exp/log tables.  The tables are the
15 powers of alpha and their discrete logs; they are stored packed into a
single natural number, four bits per entry (entry i is `(packed / 16^i) % 16`),
which is what `gfExpTable.getD`/`gfLogTable.getD` would return on the explicit
lists `[1,2,4,8,3,6,12,11,5,10,7,14,15,13,9]` and
`[0,0,1,4,2,8,5,10,3,14,9,7,6,13,11,12]` (see `gfExp_eq_table`/`gfLog_eq_table`).
-/

/-- Explicit exp table of GF(16): `gfExpTable[i] = alpha^i`. -/
def gfExpTable : List Nat := [1, 2, 4, 8, 3, 6, 12, 11, 5, 10, 7, 14, 15, 13, 9]

/-- Explicit log table of GF(16): `gfLogTable[e] = log_alpha e` (0 for e = 0). -/
def gfLogTable : List Nat := [0, 0, 1, 4, 2, 8, 5, 10, 3, 14, 9, 7, 6, 13, 11, 12]

/-- `exp[i]`: the field element alpha^i, indices mod 15 (packed-table lookup). -/
def gfExp (i : Nat) : Nat := (711541965164086305 / 16 ^ (i % 15)) % 16

/-- `log[e]`: discrete log of nonzero element e (packed-table lookup). -/
def gfLog (a : Nat) : Nat := (14688061253356765440 / 16 ^ (a % 16)) % 16

/-- Field addition: xor (characteristic 2). -/
def gfAdd (a b : Nat) : Nat := a ^^^ b

/-- Field multiplication: 0 if either operand is 0, else `exp[(log a + log b) % 15]`. -/
def gfMul (a b : Nat) : Nat :=
  if a = 0 then 0 else if b = 0 then 0 else gfExp ((gfLog a + gfLog b) % 15)

/-- Multiplicative inverse (0 for the zero element; callers guard). -/
def gfInv (a : Nat) : Nat :=
  if a = 0 then 0 else gfExp ((15 - gfLog a) % 15)

/-- Field division `a / b` as `a * inverse b`. -/
def gfDiv (a b : Nat) : Nat := gfMul a (gfInv b)

/-- Field power by repeated multiplication. -/
def gfPow (x : Nat) : Nat → Nat
  | 0 => 1
  | n + 1 => gfMul x (gfPow x n)

/-! ## Polynomials over GF(16)

Coefficient lists.  `polyEvalA` evaluates an ascending list (index = power)
by Horner's rule; `evalD` evaluates a descending list (head = highest power).
-/

/-- Horner evaluation of an ascending coefficient list. -/
def polyEvalA (p : List Nat) (x : Nat) : Nat :=
  p.foldr (fun c acc => gfAdd c (gfMul x acc)) 0

/-- Horner evaluation of a descending coefficient list. -/
def evalD (p : List Nat) (x : Nat) : Nat :=
  p.foldl (fun acc c => gfAdd (gfMul acc x) c) 0

/-- Polynomial addition on ascending lists (shorter list padded with zeros). -/
def polyAddA (p q : List Nat) : List Nat :=
  if p.length < q.length then (p ++ List.replicate (q.length - p.length) 0).zipWith gfAdd q
  else p.zipWith gfAdd (q ++ List.replicate (p.length - q.length) 0)

/-- Polynomial multiplication on ascending lists. -/
def polyMulA : List Nat → List Nat → List Nat
  | [], _ => []
  | a :: p, q => polyAddA (q.map (gfMul a)) (0 :: polyMulA p q)

/-- Generator polynomial `g(x) = (x + alpha^1)(x + alpha^2)(x + alpha^3)(x + alpha^4)`
built by iterative polynomial multiplication from consecutive roots
(spec section 4.3; the `dna_storage` encode/decode paths build it with
starting root index 1 and root count 4).  Ascending coefficients, monic. -/
def genPoly : List Nat :=
  (List.range 4).foldl (fun acc i => polyMulA acc [gfExp (i + 1), 1]) [1]

/-- The non-leading coefficients of `genPoly`, descending: `[g3, g2, g1, g0]`. -/
def gLow : List Nat := (genPoly.take 4).reverse

/-- Componentwise field addition (xor) of two symbol vectors. -/
def vecXor (u v : List Nat) : List Nat := u.zipWith gfAdd v

/-! ## RS(15,11) encoder

Modelled from the spec (section 4.4): systematic encoding.  A block is 11
data symbols; the codeword is the data followed by the 4 parity symbols, the
remainder of `data(x) * x^4 mod g(x)` by polynomial long division.  Lists are
descending (block position j holds the coefficient of `x^(14-j)`). -/

/-- One long-division reduction step for the monic divisor `genPoly`:
cancel the leading coefficient f by subtracting `f * g * x^(deg)`. -/
def redStep (d : List Nat) : List Nat :=
  match d with
  | [] => []
  | f :: rest => vecXor rest (gLow.map (gfMul f) ++ List.replicate (rest.length - 4) 0)

/-- Remainder of `data(x) * x^4 mod g(x)`: 11 reduction steps take the
15-coefficient dividend down to the 4 parity symbols (descending). -/
def rsRemainder (data : List Nat) : List Nat :=
  redStep^[11] (data ++ List.replicate 4 0)

/-- Systematic RS(15,11) codeword: data in the first 11 positions, parity in
the last 4 (spec section 4.4). -/
def encodeRS (data : List Nat) : List Nat := data ++ rsRemainder data

/-- Syndromes: the received word evaluated at the generator roots
`alpha^1 .. alpha^4` (spec section 4.5 step 1). -/
def synd (r : List Nat) : List Nat :=
  (List.range 4).map (fun i => evalD r (gfExp (i + 1)))

/-! ## RS(15,11) decoder

Modelled from the spec (section 4.5): syndrome decoding via Berlekamp-Massey,
Chien-style exhaustive root search and Forney magnitudes.  All candidate
error locations produced by the search lie in `[0, 15)` by construction
(step 5's range check cannot fire); a root-count/degree mismatch or a zero
Forney denominator is an internal inconsistency and fails (`none`). -/

/-- Berlekamp-Massey state: error locator `lam` (ascending), previous locator
`bpoly`, current degree `L`, shift `m`, previous discrepancy `b`. -/
structure BMState where
  lam : List Nat
  bpoly : List Nat
  L : Nat
  m : Nat
  b : Nat

/-- One Berlekamp-Massey iteration on syndrome index n. -/
def bmStep (S : List Nat) (st : BMState) (n : Nat) : BMState :=
  let delta := (List.range (st.L + 1)).foldl
    (fun acc i => if i ≤ n then gfAdd acc (gfMul (st.lam.getD i 0) (S.getD (n - i) 0)) else acc) 0
  if delta = 0 then
    { st with m := st.m + 1 }
  else if 2 * st.L ≤ n then
    { lam := polyAddA st.lam ((List.replicate st.m 0 ++ st.bpoly).map (gfMul (gfDiv delta st.b)))
      bpoly := st.lam, L := n + 1 - st.L, m := 1, b := delta }
  else
    { st with
      lam := polyAddA st.lam ((List.replicate st.m 0 ++ st.bpoly).map (gfMul (gfDiv delta st.b)))
      m := st.m + 1 }

/-- Berlekamp-Massey: error locator polynomial and its degree bound from the
syndromes (spec section 4.5 step 2). -/
def berlekampMassey (S : List Nat) : List Nat × Nat :=
  let st := (List.range S.length).foldl (bmStep S) ⟨[1], [1], 0, 1, 1⟩
  (st.lam, st.L)

/-- Formal derivative over GF(2^4): even-power coefficients vanish. -/
def polyDeriv (p : List Nat) : List Nat :=
  (List.range (p.length - 1)).map (fun i => if i % 2 = 0 then p.getD (i + 1) 0 else 0)

/-- From syndromes to the error vector (over the 15 block positions) and the
error count: locator roots by exhaustive search over all positions (block
position p corresponds to location power `14 - p`), magnitudes by Forney with
first consecutive root `alpha^1`.  `none` on detected-but-uncorrectable
inconsistencies (spec section 4.5 steps 3-5). -/
def rsCorrect (S : List Nat) : Option (List Nat × Nat) :=
  let bmOut := berlekampMassey S
  let lam := bmOut.1
  let errPowers := (List.range 15).filter (fun j => polyEvalA lam (gfInv (gfExp j)) = 0)
  if errPowers.length ≠ bmOut.2 then none
  else
    let omega := (polyMulA S lam).take 4
    let lamD := polyDeriv lam
    let mags := errPowers.map (fun j =>
      let xinv := gfInv (gfExp j)
      let den := polyEvalA lamD xinv
      if den = 0 then none else some (j, gfDiv (polyEvalA omega xinv) den))
    if mags.any (·.isNone) then none
    else
      let magList := mags.filterMap id
      let ev := (List.range 15).map (fun p =>
        match magList.find? (fun jm => jm.1 = 14 - p) with
        | some jm => jm.2
        | none => 0)
      some (ev, errPowers.length)

/-- Full decode of a received 15-symbol word: all-zero syndromes return the
word unchanged with 0 errors found (spec section 4.5 step 1); otherwise the
correction core runs and the error vector is added back onto the word. -/
def rsDecode (r : List Nat) : Option (List Nat × Nat) :=
  let S := synd r
  if S.all (· = 0) then some (r, 0)
  else
    match rsCorrect S with
    | none => none
    | some evc => some (vecXor r evc.1, evc.2)

/-! ## The `dna_storage` wrapper

Embedded from `RS_codes_for_DNAStorage_schifra/include/schifra/dna_storage.hpp`
(instantiated, as everywhere in the repository, at CodeLength 15, FecLength 4,
DataLength 11).  Strings are lists of characters; C++ exceptions are `Except`
values with an explicit error kind in place of the exception message. -/

/-- The `dna_to_symbol_` lookup applied after `toupper`: the map holds both
cases of each base, so the composite accepts exactly the eight characters
below (hpp lines 232-239, 291-298). -/
def charSym (c : Char) : Option Nat :=
  match c with
  | 'A' => some 0
  | 'a' => some 0
  | 'C' => some 1
  | 'c' => some 1
  | 'G' => some 2
  | 'g' => some 2
  | 'T' => some 3
  | 't' => some 3
  | _ => none

/-- The `symbol_to_dna_` map: uppercase only (hpp lines 300-308). -/
def symChar (n : Nat) : Option Char :=
  match n with
  | 0 => some 'A'
  | 1 => some 'C'
  | 2 => some 'G'
  | 3 => some 'T'
  | _ => none

/-- `validate_dna`: non-empty and every character maps under the
case-insensitive base table (hpp lines 262-270). -/
def validateDna (dna : List Char) : Bool :=
  !dna.isEmpty && dna.all (fun c => (charSym c).isSome)

/-- `dna_to_symbols`: per-character map, throwing (none) on an invalid
character (hpp lines 228-243). -/
def dnaToSymbols (dna : List Char) : Option (List Nat) :=
  dna.mapM charSym

/-- `symbols_to_dna`: per-symbol map, throwing (none) on a value > 3
(hpp lines 245-259). -/
def symsToDna (syms : List Nat) : Option (List Char) :=
  syms.mapM symChar

/-- Error kinds of the wrapper, standing in for the C++ exception messages.
The first three are the eager validation failures (`std::invalid_argument`);
`rsFailure` is "Reed-Solomon encoding/decoding failed" and `invalidSymbol`
is "Invalid symbol value" (`std::runtime_error`). -/
inductive CodecError where
  | invalidDna
  | wrongDnaLength
  | wrongEccLength
  | rsFailure
  | invalidSymbol
  deriving DecidableEq

/-- Which error kinds are input-validation failures. -/
def CodecError.isValidation : CodecError → Bool
  | .invalidDna => true
  | .wrongDnaLength => true
  | .wrongEccLength => true
  | _ => false

/-- `dna_storage::encode` (hpp lines 122-167): validate, length-check, map to
symbols, RS-encode, and return the original DNA string unchanged together
with the 4 parity symbols extracted from the encoded block. -/
def dnaEncode (dna : List Char) : Except CodecError (List Char × List Nat) :=
  if validateDna dna = false then .error .invalidDna
  else if dna.length ≠ 11 then .error .wrongDnaLength
  else
    match dnaToSymbols dna with
    | none => .error .invalidDna
    | some syms => .ok (dna, (encodeRS syms).drop 11)

/-- `dna_storage::decode` (hpp lines 170-211): validate, length-check both
inputs, rebuild the 15-symbol block from data and ecc, RS-decode, and map the
corrected data portion back to (uppercase) DNA. -/
def dnaDecode (dna : List Char) (ecc : List Nat) : Except CodecError (List Char) :=
  if validateDna dna = false then .error .invalidDna
  else if dna.length ≠ 11 then .error .wrongDnaLength
  else if ecc.length ≠ 4 then .error .wrongEccLength
  else
    match dnaToSymbols dna with
    | none => .error .invalidDna
    | some syms =>
      match rsDecode (syms ++ ecc) with
      | none => .error .rsFailure
      | some corr =>
        match symsToDna (corr.1.take 11) with
        | none => .error .invalidSymbol
        | some out => .ok out

/-! ## Chunking and the block pipelines

Embedded from the pipeline drivers (`src/unnamed/part_005`, `part_006`,
`part_009`).  `BLOCK_SIZE = 11`. -/

/-- The loop of `split_into_blocks`, structural on a fuel counter: each
iteration emits one window of at most `bs` characters and advances past it.
A fuel of `s.length` steps is always sufficient, because every iteration on
a non-empty remainder consumes at least one character (for `bs ≥ 1`). -/
def splitGo : Nat → List Char → Nat → List (List Char)
  | 0, _, _ => []
  | fuel + 1, s, bs =>
    if s = [] ∨ bs = 0 then []
    else s.take bs :: splitGo fuel (s.drop bs) bs

/-- `split_into_blocks` (part_005 lines 51-58, part_006 lines 25-31): split
into consecutive windows of `bs` characters; the final window may be short.
The C++ loop never terminates for `bs = 0`; the model returns `[]` there
(all call sites use `bs = BLOCK_SIZE = 11`). -/
def splitIntoBlocks (s : List Char) (bs : Nat) : List (List Char) :=
  splitGo s.length s bs

/-- `pad_block` (part_005 lines 61-66): right-pad with the filler base 'A' up
to the target size. -/
def padBlock (b : List Char) (target : Nat) : List Char :=
  if target ≤ b.length then b else b ++ List.replicate (target - b.length) 'A'

/-- `remove_padding` (part_005 lines 69-72): truncate back to the original
size. -/
def removePadding (b : List Char) (orig : Nat) : List Char :=
  if b.length ≤ orig then b else b.take orig

/-- The per-block body of `process_dna_sequence` /
`process_dna_sequence_parallel` (part_005 lines 130-138 and 169-180,
part_006 lines 119-144), given a per-block-index processing oracle `f`
standing for `process_block` (encode, thread-local random corruption,
decode; `none` = caught exception): pad the last short block, process, and
strip the padding again on success. -/
def blockOutcome (f : Nat → List Char → Option (List Char))
    (blocks : List (List Char)) (i : Nat) : Option (List Char) :=
  let blk := blocks.getD i []
  let padded := if i = blocks.length - 1 ∧ blk.length < 11 then padBlock blk 11 else blk
  match f i padded with
  | none => none
  | some dec =>
    some (if i = blocks.length - 1 ∧ blk.length < 11 then removePadding dec blk.length else dec)

/-- The sequential loop of `process_dna_sequence` (part_005 lines 130-139):
process block indices in order and break on the first failure. -/
def seqCollect (f : Nat → List Char → Option (List Char))
    (blocks : List (List Char)) : List Nat → Option (List (List Char))
  | [] => some []
  | i :: rest =>
    match blockOutcome f blocks i with
    | none => none
    | some d =>
      match seqCollect f blocks rest with
      | none => none
      | some ds => some (d :: ds)

/-- `process_dna_sequence` (part_005 lines 121-156): sequential processing;
on any failure the output is cleared and `false` returned, otherwise the
decoded blocks are concatenated in index order. -/
def processSeq (f : Nat → List Char → Option (List Char)) (s : List Char) :
    Bool × List Char :=
  match seqCollect f (splitIntoBlocks s 11)
      (List.range (splitIntoBlocks s 11).length) with
  | none => (false, [])
  | some ds => (true, ds.flatten)

/-- `process_dna_sequence_parallel` (part_005 lines 159-198) and part_006's
OpenMP `process_dna_sequence` (lines 106-172): every block index is processed
(a failure only clears the shared flag and continues), each result is written to
its own slot keyed by chunk index, and on success the slots are concatenated
in index order; on any failure the output is cleared and `false` returned. -/
def processPar (f : Nat → List Char → Option (List Char)) (s : List Char) :
    Bool × List Char :=
  if (((List.range (splitIntoBlocks s 11).length).map
      (blockOutcome f (splitIntoBlocks s 11))).all (·.isSome)) then
    (true, ((((List.range (splitIntoBlocks s 11).length).map
      (blockOutcome f (splitIntoBlocks s 11))).filterMap id).flatten))
  else (false, [])

/-- The pure split/recombine round trip of the pipeline with identity block
processing (part_006 lines 119-157): pad the final short block, (decode =
identity here), strip its padding, concatenate in chunk-index order. -/
def chunkRecombine (s : List Char) (k : Nat) : List Char :=
  ((List.range (splitIntoBlocks s k).length).map (fun i =>
    let blk := (splitIntoBlocks s k).getD i []
    let dec := if i = (splitIntoBlocks s k).length - 1 ∧ blk.length < k
      then padBlock blk k else blk
    if i = (splitIntoBlocks s k).length - 1 ∧ blk.length < k
      then removePadding dec blk.length
    else dec)).flatten

/-! ## The benchmark pipeline (part_009) -/

/-- Per-block statistics of `process_dna_sequence_benchmark`
(part_009 lines 60-66; the wall-clock timing fields are outside the model). -/
structure BlockStats where
  errorsIntroduced : Nat
  errorsCorrected : Nat
  deriving DecidableEq

/-- Aggregated benchmark result (part_009 lines 36-57; timing/throughput
fields are outside the model).  Note there is no failed-block field. -/
structure BenchmarkResult where
  totalBlocks : Nat
  totalErrorsIntroduced : Nat
  totalErrorsCorrected : Nat
  deriving DecidableEq

/-- `BenchmarkResult::error_correction_rate` (part_009 lines 48-51) as an
exact rational. -/
def errorCorrectionRate (r : BenchmarkResult) : ℚ :=
  if r.totalErrorsIntroduced > 0 then
    (r.totalErrorsCorrected : ℚ) / (r.totalErrorsIntroduced : ℚ)
  else 1

/-- `process_dna_sequence_benchmark` (part_009 lines 111-208), given a
per-block-index oracle `g` standing for the try-block body (pad, encode,
corrupt, decode, count): a caught exception (`none`) leaves that block's
slot at its default-constructed value, exactly as the C++ catch block does;
siblings are unaffected.  The aggregate sums the per-block statistics. -/
def benchResult (g : Nat → Option BlockStats) (s : List Char) : BenchmarkResult :=
  { totalBlocks := (splitIntoBlocks s 11).length
    totalErrorsIntroduced := (((List.range (splitIntoBlocks s 11).length).map (fun i =>
      match g i with
      | some st => st
      | none => ⟨0, 0⟩)).map (·.errorsIntroduced)).sum
    totalErrorsCorrected := (((List.range (splitIntoBlocks s 11).length).map (fun i =>
      match g i with
      | some st => st
      | none => ⟨0, 0⟩)).map (·.errorsCorrected)).sum }

/-- The base picked by `bases[gen() % 4]` (part_009 line 101). -/
def baseAt (n : Nat) : Char := ['A', 'C', 'G', 'T'].getD (n % 4) 'A'

/-- The do-while retry of `introduce_errors` (part_009 lines 100-103): keep
drawing until the picked base differs from the current character; `none` when
the modelled draw stream runs out. -/
def pickDiff (orig : Char) : List Nat → Option (Char × List Nat)
  | [] => none
  | g :: rest => if baseAt g = orig then pickDiff orig rest else some (baseAt g, rest)

/-- The error-introduction loop of `introduce_errors` (part_009 lines 94-105):
each iteration draws a position (uniform over the current string, with
replacement) and a replacement base differing from the character currently at
that position.  The pseudo-random generator is modelled by the explicit draw
stream. -/
def introduceErrorsGo (s : List Char) : Nat → List Nat → Option (List Char)
  | 0, _ => some s
  | cnt + 1, stream =>
    match stream with
    | [] => none
    | p :: rest =>
      let pos := p % s.length
      match pickDiff (s.getD pos 'A') rest with
      | none => none
      | some picked => introduceErrorsGo (s.set pos picked.1) cnt picked.2

/-- `introduce_errors` (part_009 lines 85-108): identity for zero errors,
otherwise the draw loop (the C++ function, called only on non-empty block
strings, is modelled for non-empty input; `none` covers the out-of-model
cases). -/
def introduceErrors (s : List Char) (errorCount : Nat) (stream : List Nat) :
    Option (List Char) :=
  if errorCount = 0 then some s
  else if s.isEmpty then none
  else introduceErrorsGo s errorCount stream

/-- Count of positions where two strings differ, over their common length:
the errors-corrected count of part_009 lines 173-177. -/
def countDiff (u v : List Char) : Nat :=
  ((u.zip v).filter (fun p => p.1 ≠ p.2)).length

/-- The per-block try body of `process_dna_sequence_benchmark`
(part_009 lines 140-182) on an 11-base block: encode, corrupt the returned
data string with `min errorsPerBlock 2` substitutions, decode with the
original ecc, and record `errors_to_introduce` as introduced and the
corrupted/corrected mismatch count as corrected.  Any exception is `none`. -/
def benchBlockRun (blk : List Char) (errorsPerBlock : Nat) (stream : List Nat) :
    Option (BlockStats × List Char) :=
  match dnaEncode blk with
  | .error _ => none
  | .ok enc =>
    let toIntroduce := min errorsPerBlock 2
    match introduceErrors enc.1 toIntroduce stream with
    | none => none
    | some corrupted =>
      match dnaDecode corrupted enc.2 with
      | .error _ => none
      | .ok corrected =>
        some (⟨toIntroduce, countDiff corrupted corrected⟩, corrected.take 11)

/-! ## CUDA placeholder kernels

Embedded from `Parallel_RS_codes_for_DNAStorage_schifra/src/dna_storage_cuda.cu`
(lines 26-44).  The device loops write one output cell per iteration; they are
modelled as folds of in-place updates over the loop ranges. -/

/-- `encodeChunk`: copy the k data characters, then write 'N' into every
position k..14 ("placeholder for parity symbols"). -/
def encodeChunk (input output : List Char) (k : Nat) : List Char :=
  let copied := (List.range k).foldl (fun acc i => acc.set i (input.getD i 'A')) output
  (List.range' k (15 - k)).foldl (fun acc i => acc.set i 'N') copied

/-- `decodeChunk`: copy the k data characters back, ignoring parity. -/
def decodeChunk (input output : List Char) (k : Nat) : List Char :=
  (List.range k).foldl (fun acc i => acc.set i (input.getD i 'A')) output

/-! ## Concrete error vectors and decidable correction tables -/

/-- A single-error vector over the 15 block positions. -/
def unitVec (p v : Nat) : List Nat := (List.replicate 15 0).set p v

/-- A two-position error vector over the 15 block positions. -/
def errVec2 (p1 v1 p2 v2 : Nat) : List Nat := (unitVec p1 v1).set p2 v2

/-- One table entry: the correction core recovers a given two-position error vector
exactly from its syndromes. -/
def checkPair (p1 v1 p2 v2 : Nat) : Bool :=
  rsCorrect (synd (errVec2 p1 v1 p2 v2)) == some (errVec2 p1 v1 p2 v2, 2)

/-- One table entry: the correction core recovers a given single-error vector
exactly from its syndromes. -/
def checkUnit (p v : Nat) : Bool :=
  rsCorrect (synd (unitVec p v)) == some (unitVec p v, 1)

/-- All single data-position errors are corrected exactly. -/
def unitTable : Bool :=
  (List.range 11).all fun p => (List.range 3).all fun w => checkUnit p (w + 1)

/-- All two data-position errors with first position `p1` are corrected
exactly (second position ranges over the larger indices). -/
def pairTableFor (p1 : Nat) : Bool :=
  (List.range 11).all fun p2 => (p2 ≤ p1) ||
    ((List.range 3).all fun w1 => (List.range 3).all fun w2 =>
      checkPair p1 (w1 + 1) p2 (w2 + 1))

/-- Total character-to-symbol map on the valid alphabet (defaults to 0). -/
def charSymD (c : Char) : Nat := (charSym c).getD 0

/-- Total symbol-to-character map on the field range 0..3 (defaults to 'A'). -/
def symCharD (n : Nat) : Char := (symChar n).getD 'A'

/-- A three-position error vector over the 15 block positions. -/
def errVec3 (p1 v1 p2 v2 p3 v3 : Nat) : List Nat :=
  (((List.replicate 15 0).set p1 v1).set p2 v2).set p3 v3

/-- Number of actual substitutions in a two-position pattern (a zero
magnitude means no substitution at that position). -/
def wt2 (v1 v2 : Nat) : Nat := (if v1 = 0 then 0 else 1) + (if v2 = 0 then 0 else 1)

/-! # Theorems -/

/-! ## Galois field facts (checked over the full finite field) -/

theorem gfExp_eq_table : ∀ i : Nat, i < 15 → gfExp i = gfExpTable.getD i 0 := by decide

theorem gfLog_eq_table : ∀ a : Nat, a < 16 → gfLog a = gfLogTable.getD a 0 := by decide

theorem gfExp_lt (i : Nat) : gfExp i < 16 := Nat.mod_lt _ (by norm_num)

theorem gfAdd_lt : ∀ a : Nat, a < 16 → ∀ b : Nat, b < 16 → gfAdd a b < 16 := by decide

theorem gfMul_lt : ∀ a : Nat, a < 16 → ∀ b : Nat, b < 16 → gfMul a b < 16 := by decide

theorem gfMul_one16 : ∀ a : Nat, a < 16 → gfMul a 1 = a := by decide

theorem gfMul_zero_left (b : Nat) : gfMul 0 b = 0 := by simp [gfMul]

theorem gfAdd_zero_left (b : Nat) : gfAdd 0 b = b := Nat.zero_xor b

theorem gfAdd_zero_right (a : Nat) : gfAdd a 0 = a := Nat.xor_zero a

theorem gfMul_assoc16 :
    ∀ a : Nat, a < 16 → ∀ b : Nat, b < 16 → ∀ c : Nat, c < 16 →
      gfMul (gfMul a b) c = gfMul a (gfMul b c) := by decide

theorem gfMul_comm16 :
    ∀ a : Nat, a < 16 → ∀ b : Nat, b < 16 → gfMul a b = gfMul b a := by decide

theorem gfMul_add_right :
    ∀ a : Nat, a < 16 → ∀ b : Nat, b < 16 → ∀ c : Nat, c < 16 →
      gfMul (gfAdd a b) c = gfAdd (gfMul a c) (gfMul b c) := by decide

theorem gfMul_add_left :
    ∀ a : Nat, a < 16 → ∀ b : Nat, b < 16 → ∀ c : Nat, c < 16 →
      gfMul a (gfAdd b c) = gfAdd (gfMul a b) (gfMul a c) := by decide

theorem gfPow_lt (x : Nat) (hx : x < 16) : ∀ n : Nat, gfPow x n < 16 := by
  intro n
  induction n with
  | zero => simp [gfPow]
  | succ n ih => exact gfMul_lt x hx _ ih

theorem gfPow_add (x : Nat) (hx : x < 16) (m n : Nat) :
    gfPow x (m + n) = gfMul (gfPow x m) (gfPow x n) := by
  induction m with
  | zero =>
    simp only [Nat.zero_add, gfPow]
    rw [gfMul_comm16 1 (by norm_num) _ (gfPow_lt x hx n), gfMul_one16 _ (gfPow_lt x hx n)]
  | succ m ih =>
    have hxm : gfPow x m < 16 := gfPow_lt x hx m
    have hxn : gfPow x n < 16 := gfPow_lt x hx n
    calc gfPow x (m + 1 + n) = gfPow x ((m + n) + 1) := by ring_nf
      _ = gfMul x (gfPow x (m + n)) := rfl
      _ = gfMul x (gfMul (gfPow x m) (gfPow x n)) := by rw [ih]
      _ = gfMul (gfMul x (gfPow x m)) (gfPow x n) :=
          (gfMul_assoc16 x hx _ hxm _ hxn).symm
      _ = gfMul (gfPow x (m + 1)) (gfPow x n) := rfl

theorem xor_lt4 : ∀ a : Nat, a < 4 → ∀ b : Nat, b < 4 → a ^^^ b < 4 := by decide

/-! ## Horner evaluation lemmas -/

/-- The Horner step function of `evalD`. -/
def hstep (x acc c : Nat) : Nat := gfAdd (gfMul acc x) c

theorem evalD_eq_foldl (p : List Nat) (x : Nat) : evalD p x = p.foldl (hstep x) 0 := rfl

theorem hstep_lt (x : Nat) (hx : x < 16) (acc : Nat) (hacc : acc < 16) (c : Nat)
    (hc : c < 16) : hstep x acc c < 16 :=
  gfAdd_lt _ (gfMul_lt _ hacc _ hx) _ hc

theorem foldl_hstep_lt (x : Nat) (hx : x < 16) :
    ∀ (v : List Nat), (∀ c ∈ v, c < 16) → ∀ a : Nat, a < 16 → v.foldl (hstep x) a < 16 := by
  intro v
  induction v with
  | nil => intro _ a ha; simpa using ha
  | cons c v ih =>
    intro hv a ha
    have hc : c < 16 := hv c (List.mem_cons_self c v)
    have hv' : ∀ d ∈ v, d < 16 := fun d hd => hv d (List.mem_cons_of_mem c hd)
    simpa using ih hv' (hstep x a c) (hstep_lt x hx a ha c hc)

theorem evalD_lt (p : List Nat) (hp : ∀ c ∈ p, c < 16) (x : Nat) (hx : x < 16) :
    evalD p x < 16 :=
  foldl_hstep_lt x hx p hp 0 (by norm_num)

/-- Splitting off a general Horner accumulator: folding from `a` equals
`a * x^len + (fold from 0)`. -/
theorem foldl_hstep_init (x : Nat) (hx : x < 16) :
    ∀ (v : List Nat), (∀ c ∈ v, c < 16) → ∀ a : Nat, a < 16 →
      v.foldl (hstep x) a = gfAdd (gfMul a (gfPow x v.length)) (v.foldl (hstep x) 0) := by
  intro v
  induction v with
  | nil =>
    intro _ a ha
    simp [gfPow, gfMul_one16 a ha, gfAdd]
  | cons c v ih =>
    intro hv a ha
    have hc : c < 16 := hv c (List.mem_cons_self c v)
    have hv' : ∀ d ∈ v, d < 16 := fun d hd => hv d (List.mem_cons_of_mem c hd)
    have hax : gfMul a x < 16 := gfMul_lt _ ha _ hx
    have hstep0 : hstep x 0 c = c := by
      simp [hstep, gfMul_zero_left, gfAdd_zero_left]
    have hxv : gfPow x v.length < 16 := gfPow_lt x hx v.length
    calc (c :: v).foldl (hstep x) a
        = v.foldl (hstep x) (hstep x a c) := rfl
      _ = gfAdd (gfMul (hstep x a c) (gfPow x v.length)) (v.foldl (hstep x) 0) :=
          ih hv' _ (hstep_lt x hx a ha c hc)
      _ = gfAdd (gfAdd (gfMul (gfMul a x) (gfPow x v.length)) (gfMul c (gfPow x v.length)))
            (v.foldl (hstep x) 0) := by
          rw [hstep, gfMul_add_right _ hax _ hc _ hxv]
      _ = gfAdd (gfMul a (gfPow x (v.length + 1)))
            (gfAdd (gfMul c (gfPow x v.length)) (v.foldl (hstep x) 0)) := by
          rw [gfMul_assoc16 a ha x hx _ hxv]
          have : gfMul x (gfPow x v.length) = gfPow x (v.length + 1) := rfl
          rw [this]
          simp [gfAdd, Nat.xor_assoc]
      _ = gfAdd (gfMul a (gfPow x ((c :: v).length))) ((c :: v).foldl (hstep x) 0) := by
          have h0 : (c :: v).foldl (hstep x) 0 = v.foldl (hstep x) c := by
            simp [List.foldl_cons, hstep0]
          rw [h0, ih hv' c hc]
          simp [List.length_cons]

theorem evalD_cons (x : Nat) (hx : x < 16) (c : Nat) (hc : c < 16) (v : List Nat)
    (hv : ∀ d ∈ v, d < 16) :
    evalD (c :: v) x = gfAdd (gfMul c (gfPow x v.length)) (evalD v x) := by
  have h0 : hstep x 0 c = c := by simp [hstep, gfMul_zero_left, gfAdd_zero_left]
  calc evalD (c :: v) x = v.foldl (hstep x) c := by simp [evalD_eq_foldl, List.foldl_cons, h0]
    _ = gfAdd (gfMul c (gfPow x v.length)) (v.foldl (hstep x) 0) :=
        foldl_hstep_init x hx v hv c hc
    _ = gfAdd (gfMul c (gfPow x v.length)) (evalD v x) := rfl

theorem evalD_append (x : Nat) (hx : x < 16) (u v : List Nat)
    (hu : ∀ c ∈ u, c < 16) (hv : ∀ c ∈ v, c < 16) :
    evalD (u ++ v) x = gfAdd (gfMul (evalD u x) (gfPow x v.length)) (evalD v x) := by
  calc evalD (u ++ v) x = v.foldl (hstep x) (u.foldl (hstep x) 0) := by
        simp [evalD_eq_foldl, List.foldl_append]
    _ = gfAdd (gfMul (evalD u x) (gfPow x v.length)) (evalD v x) :=
        foldl_hstep_init x hx v hv _ (evalD_lt u hu x hx)

theorem evalD_replicate_zero (x : Nat) (k : Nat) : evalD (List.replicate k 0) x = 0 := by
  induction k with
  | zero => rfl
  | succ k ih =>
    have h0 : hstep x 0 0 = 0 := by simp [hstep, gfMul_zero_left, gfAdd]
    calc evalD (List.replicate (k + 1) 0) x
        = (List.replicate k 0).foldl (hstep x) (hstep x 0 0) := by
          simp [evalD_eq_foldl, List.replicate_succ]
      _ = evalD (List.replicate k 0) x := by rw [h0]; rfl
      _ = 0 := ih

/-- Scaling: evaluating `f * p` equals `f * (evaluating p)`. -/
theorem foldl_hstep_scale (x : Nat) (hx : x < 16) (f : Nat) (hf : f < 16) :
    ∀ (p : List Nat), (∀ c ∈ p, c < 16) → ∀ a : Nat, a < 16 →
      (p.map (gfMul f)).foldl (hstep x) (gfMul f a) = gfMul f (p.foldl (hstep x) a) := by
  intro p
  induction p with
  | nil => intro _ a _; rfl
  | cons c p ih =>
    intro hp a ha
    have hc : c < 16 := hp c (List.mem_cons_self c p)
    have hp' : ∀ d ∈ p, d < 16 := fun d hd => hp d (List.mem_cons_of_mem c hd)
    have key : hstep x (gfMul f a) (gfMul f c) = gfMul f (hstep x a c) := by
      have hax : gfMul a x < 16 := gfMul_lt _ ha _ hx
      calc hstep x (gfMul f a) (gfMul f c)
          = gfAdd (gfMul (gfMul f a) x) (gfMul f c) := rfl
        _ = gfAdd (gfMul f (gfMul a x)) (gfMul f c) := by
            rw [gfMul_assoc16 f hf a ha x hx]
        _ = gfMul f (gfAdd (gfMul a x) c) := (gfMul_add_left f hf _ hax _ hc).symm
        _ = gfMul f (hstep x a c) := rfl
    calc ((c :: p).map (gfMul f)).foldl (hstep x) (gfMul f a)
        = (p.map (gfMul f)).foldl (hstep x) (hstep x (gfMul f a) (gfMul f c)) := rfl
      _ = (p.map (gfMul f)).foldl (hstep x) (gfMul f (hstep x a c)) := by rw [key]
      _ = gfMul f (p.foldl (hstep x) (hstep x a c)) :=
          ih hp' _ (hstep_lt x hx a ha c hc)
      _ = gfMul f ((c :: p).foldl (hstep x) a) := rfl

theorem evalD_scale (x : Nat) (hx : x < 16) (f : Nat) (hf : f < 16) (p : List Nat)
    (hp : ∀ c ∈ p, c < 16) :
    evalD (p.map (gfMul f)) x = gfMul f (evalD p x) := by
  have h := foldl_hstep_scale x hx f hf p hp 0 (by norm_num)
  have h0 : gfMul f 0 = 0 := by simp [gfMul]
  simpa [evalD_eq_foldl, h0] using h

/-- Linearity of Horner evaluation under componentwise xor. -/
theorem foldl_hstep_xor (x : Nat) (hx : x < 16) :
    ∀ (u v : List Nat), u.length = v.length → (∀ c ∈ u, c < 16) → (∀ c ∈ v, c < 16) →
      ∀ a1 a2 : Nat, a1 < 16 → a2 < 16 →
      (u.zipWith gfAdd v).foldl (hstep x) (gfAdd a1 a2) =
        gfAdd (u.foldl (hstep x) a1) (v.foldl (hstep x) a2) := by
  intro u
  induction u with
  | nil =>
    intro v hlen _ _ a1 a2 _ _
    have : v = [] := by
      cases v with
      | nil => rfl
      | cons c v => simp at hlen
    subst this
    rfl
  | cons c u ih =>
    intro v hlen hu hv a1 a2 ha1 ha2
    cases v with
    | nil => simp at hlen
    | cons d v =>
      have hc : c < 16 := hu c (List.mem_cons_self c u)
      have hd : d < 16 := hv d (List.mem_cons_self d v)
      have hu' : ∀ e ∈ u, e < 16 := fun e he => hu e (List.mem_cons_of_mem c he)
      have hv' : ∀ e ∈ v, e < 16 := fun e he => hv e (List.mem_cons_of_mem d he)
      have hlen' : u.length = v.length := by simpa using hlen
      have key : hstep x (gfAdd a1 a2) (gfAdd c d) =
          gfAdd (hstep x a1 c) (hstep x a2 d) := by
        calc hstep x (gfAdd a1 a2) (gfAdd c d)
            = gfAdd (gfAdd (gfMul a1 x) (gfMul a2 x)) (gfAdd c d) := by
              rw [hstep, gfMul_add_right _ ha1 _ ha2 _ hx]
          _ = gfAdd (hstep x a1 c) (hstep x a2 d) := by
              simp only [hstep, gfAdd]
              rw [Nat.xor_assoc, Nat.xor_assoc]
              congr 1
              rw [← Nat.xor_assoc, ← Nat.xor_assoc, Nat.xor_comm (gfMul a2 x) c]
      calc ((c :: u).zipWith gfAdd (d :: v)).foldl (hstep x) (gfAdd a1 a2)
          = (u.zipWith gfAdd v).foldl (hstep x) (hstep x (gfAdd a1 a2) (gfAdd c d)) := rfl
        _ = (u.zipWith gfAdd v).foldl (hstep x) (gfAdd (hstep x a1 c) (hstep x a2 d)) := by
            rw [key]
        _ = gfAdd (u.foldl (hstep x) (hstep x a1 c)) (v.foldl (hstep x) (hstep x a2 d)) :=
            ih v hlen' hu' hv' _ _ (hstep_lt x hx a1 ha1 c hc) (hstep_lt x hx a2 ha2 d hd)
        _ = gfAdd ((c :: u).foldl (hstep x) a1) ((d :: v).foldl (hstep x) a2) := rfl

theorem evalD_vecXor (x : Nat) (hx : x < 16) (u v : List Nat) (hlen : u.length = v.length)
    (hu : ∀ c ∈ u, c < 16) (hv : ∀ c ∈ v, c < 16) :
    evalD (vecXor u v) x = gfAdd (evalD u x) (evalD v x) := by
  have h := foldl_hstep_xor x hx u v hlen hu hv 0 0 (by norm_num) (by norm_num)
  simpa [evalD_eq_foldl, vecXor, gfAdd] using h

/-! ## vecXor identities -/

theorem vecXor_length (u v : List Nat) : (vecXor u v).length = min u.length v.length := by
  simp [vecXor]

theorem vecXor_mem_lt :
    ∀ (u v : List Nat), (∀ c ∈ u, c < 16) → (∀ c ∈ v, c < 16) →
      ∀ c ∈ vecXor u v, c < 16 := by
  intro u
  induction u with
  | nil => intro v _ _; simp [vecXor]
  | cons a u ih =>
    intro v hu hv
    cases v with
    | nil => simp [vecXor]
    | cons b v =>
      intro c hc
      simp only [vecXor, List.zipWith_cons_cons, List.mem_cons] at hc
      rcases hc with rfl | hc
      · exact gfAdd_lt a (hu a (List.mem_cons_self a u)) b (hv b (List.mem_cons_self b v))
      · exact ih v (fun d hd => hu d (List.mem_cons_of_mem a hd))
          (fun d hd => hv d (List.mem_cons_of_mem b hd)) c hc

theorem vecXor_zero_right (u : List Nat) : vecXor u (List.replicate u.length 0) = u := by
  induction u with
  | nil => rfl
  | cons c u ih =>
    simp only [List.length_cons, List.replicate_succ, vecXor, List.zipWith_cons_cons]
    rw [show gfAdd c 0 = c from Nat.xor_zero c]
    exact congrArg (c :: ·) ih

theorem vecXor_cancel (c e : List Nat) (hlen : c.length = e.length) :
    vecXor (vecXor c e) e = c := by
  induction c generalizing e with
  | nil =>
    cases e with
    | nil => rfl
    | cons d e => simp at hlen
  | cons a c ih =>
    cases e with
    | nil => simp at hlen
    | cons d e =>
      have hlen' : c.length = e.length := by simpa using hlen
      simp only [vecXor, List.zipWith_cons_cons]
      have : gfAdd (gfAdd a d) d = a := by
        simp [gfAdd, Nat.xor_assoc]
      rw [this]
      exact congrArg (a :: ·) (ih e hlen')

theorem vecXor_append (u1 v1 u2 v2 : List Nat) (h : u1.length = v1.length) :
    vecXor (u1 ++ u2) (v1 ++ v2) = vecXor u1 v1 ++ vecXor u2 v2 :=
  List.zipWith_append _ _ _ _ _ h

theorem vecXor_eq_self (u z : List Nat) (hlen : u.length = z.length)
    (h : vecXor u z = u) : z = List.replicate u.length 0 := by
  induction u generalizing z with
  | nil =>
    cases z with
    | nil => rfl
    | cons d z => simp at hlen
  | cons a u ih =>
    cases z with
    | nil => simp at hlen
    | cons d z =>
      have hlen' : u.length = z.length := by simpa using hlen
      simp only [vecXor, List.zipWith_cons_cons] at h
      have h1 : gfAdd a d = a := (List.cons_eq_cons.mp h).1
      have h2 : vecXor u z = u := (List.cons_eq_cons.mp h).2
      have hd : d = 0 := by
        have := congrArg (fun t => a ^^^ t) h1
        simpa [gfAdd, ← Nat.xor_assoc] using this
      simp only [List.length_cons, List.replicate_succ, hd]
      exact congrArg (0 :: ·) (ih z hlen' h2)

/-! ## The encoder produces zero syndromes -/

theorem gLow_mem_lt : ∀ c ∈ gLow, c < 16 := by decide

theorem gLow_length : gLow.length = 4 := by decide

theorem gLow_root :
    ∀ i : Nat, i < 4 → evalD gLow (gfExp (i + 1)) = gfPow (gfExp (i + 1)) 4 := by decide

theorem redStep_length (d : List Nat) (h : 5 ≤ d.length) :
    (redStep d).length = d.length - 1 := by
  match d with
  | [] => simp at h
  | f :: rest =>
    have hrest : 4 ≤ rest.length := by simpa using h
    simp only [redStep, vecXor_length, List.length_append, List.length_map,
      List.length_replicate, gLow_length, List.length_cons]
    omega

theorem redStep_mem_lt (d : List Nat) (hd : ∀ c ∈ d, c < 16) :
    ∀ c ∈ redStep d, c < 16 := by
  match d with
  | [] => simp [redStep]
  | f :: rest =>
    have hf : f < 16 := hd f (List.mem_cons_self f rest)
    have hrest : ∀ a ∈ rest, a < 16 := fun a ha => hd a (List.mem_cons_of_mem f ha)
    have hw : ∀ c ∈ gLow.map (gfMul f) ++ List.replicate (rest.length - 4) 0, c < 16 := by
      intro c hc
      rcases List.mem_append.mp hc with hb1 | hb2
      · obtain ⟨g, hg, rfl⟩ := List.mem_map.mp hb1
        exact gfMul_lt f hf g (gLow_mem_lt g hg)
      · have := List.eq_of_mem_replicate hb2
        omega
    exact vecXor_mem_lt rest _ hrest hw

theorem evalD_redStep (x : Nat) (hx : x < 16) (hroot : evalD gLow x = gfPow x 4)
    (d : List Nat) (hd : ∀ c ∈ d, c < 16) (hlen : 5 ≤ d.length) :
    evalD (redStep d) x = evalD d x := by
  match d with
  | [] => simp at hlen
  | f :: rest =>
    have hf : f < 16 := hd f (List.mem_cons_self f rest)
    have hrest : ∀ a ∈ rest, a < 16 := fun a ha => hd a (List.mem_cons_of_mem f ha)
    have hrlen : 4 ≤ rest.length := by simpa using hlen
    have hmapmem : ∀ c ∈ gLow.map (gfMul f), c < 16 := by
      intro c hc
      obtain ⟨g, hg, rfl⟩ := List.mem_map.mp hc
      exact gfMul_lt f hf g (gLow_mem_lt g hg)
    have hw : ∀ c ∈ gLow.map (gfMul f) ++ List.replicate (rest.length - 4) 0, c < 16 := by
      intro c hc
      rcases List.mem_append.mp hc with h1 | h2
      · exact hmapmem c h1
      · have := List.eq_of_mem_replicate h2
        omega
    have hwlen : rest.length =
        (gLow.map (gfMul f) ++ List.replicate (rest.length - 4) 0).length := by
      simp only [List.length_append, List.length_map, List.length_replicate, gLow_length]
      omega
    have hevalw : evalD (gLow.map (gfMul f) ++ List.replicate (rest.length - 4) 0) x
        = gfMul f (gfPow x rest.length) := by
      rw [evalD_append x hx _ _ hmapmem (by intro c hc; have := List.eq_of_mem_replicate hc; omega)]
      rw [evalD_replicate_zero, evalD_scale x hx f hf gLow gLow_mem_lt, hroot]
      rw [List.length_replicate, gfAdd_zero_right]
      rw [gfMul_assoc16 f hf _ (gfPow_lt x hx 4) _ (gfPow_lt x hx _)]
      rw [← gfPow_add x hx 4 (rest.length - 4)]
      have : 4 + (rest.length - 4) = rest.length := by omega
      rw [this]
    calc evalD (redStep (f :: rest)) x
        = evalD (vecXor rest (gLow.map (gfMul f) ++ List.replicate (rest.length - 4) 0)) x :=
          rfl
      _ = gfAdd (evalD rest x) (gfMul f (gfPow x rest.length)) := by
          rw [evalD_vecXor x hx _ _ hwlen hrest hw, hevalw]
      _ = gfAdd (gfMul f (gfPow x rest.length)) (evalD rest x) := Nat.xor_comm _ _
      _ = evalD (f :: rest) x := (evalD_cons x hx f hf rest hrest).symm

/-- Iterating the reduction step n times on an (n+4)-coefficient dividend:
length 4, closure, and evaluation at any root of g is preserved. -/
theorem redStep_iter (x : Nat) (hx : x < 16) (hroot : evalD gLow x = gfPow x 4) :
    ∀ (n : Nat) (d : List Nat), d.length = n + 4 → (∀ c ∈ d, c < 16) →
      (redStep^[n] d).length = 4 ∧ (∀ c ∈ redStep^[n] d, c < 16) ∧
        evalD (redStep^[n] d) x = evalD d x := by
  intro n
  induction n with
  | zero => intro d hlen hd; exact ⟨hlen, hd, rfl⟩
  | succ n ih =>
    intro d hlen hd
    have h5 : 5 ≤ d.length := by omega
    have hlen' : (redStep d).length = n + 4 := by rw [redStep_length d h5]; omega
    have hd' : ∀ c ∈ redStep d, c < 16 := redStep_mem_lt d hd
    obtain ⟨l1, l2, l3⟩ := ih (redStep d) hlen' hd'
    refine ⟨?_, ?_, ?_⟩
    · rw [Function.iterate_succ_apply]; exact l1
    · rw [Function.iterate_succ_apply]; exact l2
    · rw [Function.iterate_succ_apply, l3, evalD_redStep x hx hroot d hd h5]

theorem rsRemainder_length (data : List Nat) (h11 : data.length = 11)
    (hd : ∀ c ∈ data, c < 16) : (rsRemainder data).length = 4 := by
  have hlen : (data ++ List.replicate 4 0).length = 11 + 4 := by simp [h11]
  have hall : ∀ c ∈ data ++ List.replicate 4 0, c < 16 := by
    intro c hc
    rcases List.mem_append.mp hc with h1 | h2
    · exact hd c h1
    · have := List.eq_of_mem_replicate h2; omega
  exact (redStep_iter (gfExp 1) (gfExp_lt 1) (gLow_root 0 (by norm_num)) 11 _ hlen hall).1

theorem rsRemainder_mem_lt (data : List Nat) (h11 : data.length = 11)
    (hd : ∀ c ∈ data, c < 16) : ∀ c ∈ rsRemainder data, c < 16 := by
  have hlen : (data ++ List.replicate 4 0).length = 11 + 4 := by simp [h11]
  have hall : ∀ c ∈ data ++ List.replicate 4 0, c < 16 := by
    intro c hc
    rcases List.mem_append.mp hc with h1 | h2
    · exact hd c h1
    · have := List.eq_of_mem_replicate h2; omega
  exact (redStep_iter (gfExp 1) (gfExp_lt 1) (gLow_root 0 (by norm_num)) 11 _ hlen hall).2.1

theorem encodeRS_mem_lt (data : List Nat) (h11 : data.length = 11)
    (hd : ∀ c ∈ data, c < 16) : ∀ c ∈ encodeRS data, c < 16 := by
  intro c hc
  rcases List.mem_append.mp hc with h1 | h2
  · exact hd c h1
  · exact rsRemainder_mem_lt data h11 hd c h2

theorem encodeRS_length (data : List Nat) (h11 : data.length = 11)
    (hd : ∀ c ∈ data, c < 16) : (encodeRS data).length = 15 := by
  simp [encodeRS, h11, rsRemainder_length data h11 hd]

/-- At every root of the generator polynomial the encoded word evaluates
to zero: the data contribution and the remainder cancel in characteristic 2. -/
theorem evalD_encodeRS_root (x : Nat) (hx : x < 16) (hroot : evalD gLow x = gfPow x 4)
    (data : List Nat) (h11 : data.length = 11) (hd : ∀ c ∈ data, c < 16) :
    evalD (encodeRS data) x = 0 := by
  have hlen : (data ++ List.replicate 4 0).length = 11 + 4 := by simp [h11]
  have hall : ∀ c ∈ data ++ List.replicate 4 0, c < 16 := by
    intro c hc
    rcases List.mem_append.mp hc with h1 | h2
    · exact hd c h1
    · have := List.eq_of_mem_replicate h2; omega
  obtain ⟨hl, hm, he⟩ := redStep_iter x hx hroot 11 _ hlen hall
  have hrepmem : ∀ c ∈ List.replicate 4 (0 : Nat), c < 16 := by
    intro c hc; have := List.eq_of_mem_replicate hc; omega
  have hdata : evalD (data ++ List.replicate 4 0) x
      = gfAdd (gfMul (evalD data x) (gfPow x 4)) 0 := by
    rw [evalD_append x hx _ _ hd hrepmem, evalD_replicate_zero, List.length_replicate]
  have hrem : evalD (rsRemainder data) x = gfAdd (gfMul (evalD data x) (gfPow x 4)) 0 := by
    rw [show rsRemainder data = redStep^[11] (data ++ List.replicate 4 0) from rfl, he, hdata]
  have hrlen : (rsRemainder data).length = 4 := hl
  calc evalD (encodeRS data) x
      = gfAdd (gfMul (evalD data x) (gfPow x (rsRemainder data).length))
          (evalD (rsRemainder data) x) :=
        evalD_append x hx data (rsRemainder data) hd hm
    _ = gfAdd (gfMul (evalD data x) (gfPow x 4)) (gfAdd (gfMul (evalD data x) (gfPow x 4)) 0) := by
        rw [hrlen, hrem]
    _ = 0 := by simp [gfAdd]

/-- The syndromes of any encoded word are all zero (round-trip core). -/
theorem synd_encodeRS (data : List Nat) (h11 : data.length = 11)
    (hd : ∀ c ∈ data, c < 16) : synd (encodeRS data) = [0, 0, 0, 0] := by
  have h := fun (i : Nat) (hi : i < 4) =>
    evalD_encodeRS_root (gfExp (i + 1)) (gfExp_lt (i + 1)) (gLow_root i hi) data h11 hd
  simp only [synd, show List.range 4 = [0, 1, 2, 3] from rfl, List.map_cons, List.map_nil]
  rw [h 0 (by norm_num), h 1 (by norm_num), h 2 (by norm_num), h 3 (by norm_num)]

/-! ## Syndrome linearity and the decode decomposition -/

theorem zipWith_map_same {α β : Type} (f : β → β → β) (g h : α → β) (l : List α) :
    (l.map g).zipWith f (l.map h) = l.map (fun i => f (g i) (h i)) := by
  induction l with
  | nil => rfl
  | cons a l ih => simp [ih]

theorem synd_length (r : List Nat) : (synd r).length = 4 := by simp [synd]

theorem synd_mem_lt (r : List Nat) (hr : ∀ c ∈ r, c < 16) : ∀ s ∈ synd r, s < 16 := by
  intro s hs
  simp only [synd, List.mem_map] at hs
  obtain ⟨i, _, rfl⟩ := hs
  exact evalD_lt r hr _ (gfExp_lt (i + 1))

theorem synd_vecXor (u v : List Nat) (hlen : u.length = v.length)
    (hu : ∀ c ∈ u, c < 16) (hv : ∀ c ∈ v, c < 16) :
    synd (vecXor u v) = vecXor (synd u) (synd v) := by
  simp only [synd, vecXor, zipWith_map_same]
  refine List.map_congr_left ?_
  intro i _
  exact evalD_vecXor (gfExp (i + 1)) (gfExp_lt (i + 1)) u v hlen hu hv

theorem vecXor_zero_left (l : List Nat) : vecXor (List.replicate l.length 0) l = l := by
  induction l with
  | nil => rfl
  | cons c l ih =>
    simp only [List.length_cons, List.replicate_succ, vecXor, List.zipWith_cons_cons]
    rw [show gfAdd 0 c = c from Nat.zero_xor c]
    exact congrArg (c :: ·) ih

/-- Adding an error vector onto a zero-syndrome word leaves exactly the
error's syndromes. -/
theorem synd_vecXor_codeword (c e : List Nat) (hc0 : synd c = [0, 0, 0, 0])
    (hlen : c.length = e.length) (hc : ∀ a ∈ c, a < 16) (he : ∀ a ∈ e, a < 16) :
    synd (vecXor c e) = synd e := by
  rw [synd_vecXor c e hlen hc he, hc0]
  have h4 : [0, 0, 0, 0] = List.replicate (synd e).length (0 : Nat) := by
    rw [synd_length]; rfl
  rw [h4, vecXor_zero_left]

theorem all_zero_eq_replicate (S : List Nat) (h : S.all (· = 0) = true) :
    S = List.replicate S.length 0 := by
  induction S with
  | nil => rfl
  | cons a S ih =>
    simp only [List.all_cons, Bool.and_eq_true, decide_eq_true_eq] at h
    obtain ⟨rfl, h2⟩ := h
    simp only [List.length_cons, List.replicate_succ]
    exact congrArg (0 :: ·) (ih h2)

theorem rsCorrect_zero_syndromes : rsCorrect [0, 0, 0, 0] = some (List.replicate 15 0, 0) := by
  decide

/-- If the correction core reports zero errors it corrects nothing. -/
theorem rsCorrect_count_zero (S ev : List Nat) (h : rsCorrect S = some (ev, 0)) :
    ev = List.replicate 15 0 := by
  simp only [rsCorrect] at h
  split at h
  · exact absurd h (by simp)
  · rename_i hlen
    split at h
    · exact absurd h (by simp)
    · rename_i hmags
      have hev := (Option.some.injEq _ _).mp h
      have hcnt : ((List.range 15).filter
          (fun j => polyEvalA (berlekampMassey S).1 (gfInv (gfExp j)) = 0)).length = 0 := by
        have := congrArg Prod.snd hev
        simpa using this
      have hnil : (List.range 15).filter
          (fun j => polyEvalA (berlekampMassey S).1 (gfInv (gfExp j)) = 0) = [] :=
        List.length_eq_zero.mp hcnt
      have hev1 := congrArg Prod.fst hev
      simp only at hev1
      rw [← hev1, hnil]
      simp only [List.map_nil, List.filterMap_nil, List.find?_nil]
      rw [show ((List.range 15).map fun _ => (0 : Nat)) = List.replicate 15 0 from by
        rw [List.map_const']; simp]

/-- A decode that reports zero errors returned the received word unchanged. -/
theorem rsDecode_count_zero (r w : List Nat) (hr : r.length = 15)
    (h : rsDecode r = some (w, 0)) : w = r := by
  simp only [rsDecode] at h
  split at h
  · have hev := (Option.some.injEq _ _).mp h
    have := congrArg Prod.fst hev
    simpa using this.symm
  · split at h
    · exact absurd h (by simp)
    · rename_i evc hcorr
      have hev := (Option.some.injEq _ _).mp h
      have hcnt : evc.2 = 0 := by
        have := congrArg Prod.snd hev
        simpa using this
      have hv : evc.1 = List.replicate 15 0 := by
        refine rsCorrect_count_zero (synd r) evc.1 ?_
        rw [hcorr]
        exact congrArg some ((Prod.ext_iff.mpr ⟨rfl, hcnt⟩ : evc = (evc.1, 0)))
      have hw := congrArg Prod.fst hev
      simp only at hw
      rw [← hw, hv, ← hr, vecXor_zero_right]

/-! ## The exhaustive correction tables

Every single- and double-position error pattern with nonzero magnitudes < 4
on the 11 data positions is recovered exactly by the correction core.  The
checks are kernel-evaluated per first position to keep each proof small. -/

theorem unitTable_true : unitTable = true := by decide

theorem pairTable0 : pairTableFor 0 = true := by decide

theorem pairTable1 : pairTableFor 1 = true := by decide

theorem pairTable2 : pairTableFor 2 = true := by decide

theorem pairTable3 : pairTableFor 3 = true := by decide

theorem pairTable4 : pairTableFor 4 = true := by decide

theorem pairTable5 : pairTableFor 5 = true := by decide

theorem pairTable6 : pairTableFor 6 = true := by decide

theorem pairTable7 : pairTableFor 7 = true := by decide

theorem pairTable8 : pairTableFor 8 = true := by decide

theorem pairTable9 : pairTableFor 9 = true := by decide

theorem pairTable10 : pairTableFor 10 = true := by decide

theorem pairTableAll : ∀ p1 : Nat, p1 < 11 → pairTableFor p1 = true := by
  intro p1 hp1
  interval_cases p1
  · exact pairTable0
  · exact pairTable1
  · exact pairTable2
  · exact pairTable3
  · exact pairTable4
  · exact pairTable5
  · exact pairTable6
  · exact pairTable7
  · exact pairTable8
  · exact pairTable9
  · exact pairTable10

/-- Extract a pointwise fact from a kernel-checked `List.range` table. -/
theorem allRange {n : Nat} {f : Nat → Bool} (h : (List.range n).all f = true) :
    ∀ i : Nat, i < n → f i = true := fun i hi =>
  List.all_eq_true.mp h i (List.mem_range.mpr hi)

/-! ## Error-vector identities -/

theorem unitVec_length (p v : Nat) : (unitVec p v).length = 15 := by simp [unitVec]

theorem errVec2_length (p1 v1 p2 v2 : Nat) : (errVec2 p1 v1 p2 v2).length = 15 := by
  simp [errVec2, unitVec]

theorem unitVec_zero (p : Nat) : unitVec p 0 = List.replicate 15 0 := by
  refine List.ext_getElem (by simp [unitVec]) ?_
  intro n h1 h2
  simp only [unitVec]
  rw [List.getElem_set, List.getElem_replicate]
  split <;> rfl

theorem errVec2_zero_fst (p1 p2 v2 : Nat) : errVec2 p1 0 p2 v2 = unitVec p2 v2 := by
  rw [errVec2, unitVec_zero]; rfl

theorem errVec2_zero_snd (p1 v1 p2 : Nat) (hne : p1 ≠ p2) :
    errVec2 p1 v1 p2 0 = unitVec p1 v1 := by
  refine List.ext_getElem (by simp [errVec2, unitVec]) ?_
  intro n h1 h2
  simp only [errVec2] at h1 ⊢
  by_cases hn : p2 = n
  · subst hn
    rw [List.getElem_set_self]
    simp only [unitVec]
    rw [List.getElem_set_ne hne, List.getElem_replicate]
  · rw [List.getElem_set_ne hn]

theorem errVec2_comm (p1 v1 p2 v2 : Nat) (hne : p1 ≠ p2) :
    errVec2 p1 v1 p2 v2 = errVec2 p2 v2 p1 v1 :=
  List.set_comm v1 v2 _ hne

theorem errVec2_mem_lt4 (p1 v1 p2 v2 : Nat) (hv1 : v1 < 4) (hv2 : v2 < 4) :
    ∀ a ∈ errVec2 p1 v1 p2 v2, a < 4 := by
  intro a ha
  rcases List.mem_or_eq_of_mem_set ha with h1 | rfl
  · rcases List.mem_or_eq_of_mem_set h1 with h2 | rfl
    · have := List.eq_of_mem_replicate h2; omega
    · exact hv1
  · exact hv2

/-! ## The correction core recovers every pattern of weight at most 2 -/

theorem rsCorrect_errVec2 (p1 p2 v1 v2 : Nat) (hp1 : p1 < 11) (hp2 : p2 < 11)
    (hne : p1 ≠ p2) (hv1 : v1 < 4) (hv2 : v2 < 4) (hnz : ¬(v1 = 0 ∧ v2 = 0)) :
    rsCorrect (synd (errVec2 p1 v1 p2 v2)) = some (errVec2 p1 v1 p2 v2, wt2 v1 v2) := by
  by_cases h1 : v1 = 0
  · subst h1
    have hv2nz : v2 ≠ 0 := fun h => hnz ⟨rfl, h⟩
    obtain ⟨w, rfl, hw⟩ : ∃ w, v2 = w + 1 ∧ w < 3 := ⟨v2 - 1, by omega, by omega⟩
    have t1 := allRange unitTable_true p2 hp2
    have t2 := allRange t1 w hw
    have := eq_of_beq t2
    rw [errVec2_zero_fst, wt2]
    simpa using this
  · by_cases h2 : v2 = 0
    · subst h2
      obtain ⟨w, rfl, hw⟩ : ∃ w, v1 = w + 1 ∧ w < 3 := ⟨v1 - 1, by omega, by omega⟩
      have t1 := allRange unitTable_true p1 hp1
      have t2 := allRange t1 w hw
      have := eq_of_beq t2
      rw [errVec2_zero_snd _ _ _ hne, wt2]
      simpa using this
    · obtain ⟨w1, rfl, hw1⟩ : ∃ w, v1 = w + 1 ∧ w < 3 := ⟨v1 - 1, by omega, by omega⟩
      obtain ⟨w2, rfl, hw2⟩ : ∃ w, v2 = w + 1 ∧ w < 3 := ⟨v2 - 1, by omega, by omega⟩
      have hwt : wt2 (w1 + 1) (w2 + 1) = 2 := by simp [wt2]
      rcases Nat.lt_or_ge p1 p2 with hlt | hge
      · have t1 := allRange (pairTableAll p1 hp1) p2 hp2
        rcases Bool.or_eq_true_iff.mp t1 with hle | hin
        · exact absurd (of_decide_eq_true hle) (by omega)
        · have t2 := allRange (allRange hin w1 hw1) w2 hw2
          have := eq_of_beq t2
          rw [hwt]
          exact this
      · have hlt : p2 < p1 := by omega
        have t1 := allRange (pairTableAll p2 hp2) p1 hp1
        rcases Bool.or_eq_true_iff.mp t1 with hle | hin
        · exact absurd (of_decide_eq_true hle) (by omega)
        · have t2 := allRange (allRange hin w2 hw2) w1 hw1
          have := eq_of_beq t2
          rw [hwt, errVec2_comm _ _ _ _ hne]
          exact this

/-- The spec's correction bound at the symbol level: any pattern of at most
two substitutions on the data positions of a codeword decodes back to the
codeword, reporting exactly the number of substituted positions. -/
theorem rsDecode_twoErrors (bs : List Nat) (h11 : bs.length = 11)
    (hbs : ∀ a ∈ bs, a < 4) (p1 p2 v1 v2 : Nat) (hp1 : p1 < 11) (hp2 : p2 < 11)
    (hne : p1 ≠ p2) (hv1 : v1 < 4) (hv2 : v2 < 4) :
    rsDecode (vecXor (encodeRS bs) (errVec2 p1 v1 p2 v2)) =
      some (encodeRS bs, wt2 v1 v2) := by
  have hbs16 : ∀ a ∈ bs, a < 16 := fun a ha => by have := hbs a ha; omega
  have hclen : (encodeRS bs).length = 15 := encodeRS_length bs h11 hbs16
  have hcmem : ∀ a ∈ encodeRS bs, a < 16 := encodeRS_mem_lt bs h11 hbs16
  have hc0 : synd (encodeRS bs) = [0, 0, 0, 0] := synd_encodeRS bs h11 hbs16
  have helen : (errVec2 p1 v1 p2 v2).length = 15 := errVec2_length p1 v1 p2 v2
  have hemem : ∀ a ∈ errVec2 p1 v1 p2 v2, a < 16 := fun a ha => by
    have := errVec2_mem_lt4 p1 v1 p2 v2 hv1 hv2 a ha; omega
  have hlen : (encodeRS bs).length = (errVec2 p1 v1 p2 v2).length := by
    rw [hclen, helen]
  by_cases hz : v1 = 0 ∧ v2 = 0
  · obtain ⟨rfl, rfl⟩ := hz
    have he : errVec2 p1 0 p2 0 = List.replicate 15 0 := by
      rw [errVec2_zero_fst, unitVec_zero]
    have hxe : vecXor (encodeRS bs) (errVec2 p1 0 p2 0) = encodeRS bs := by
      rw [he, ← hclen, vecXor_zero_right]
    rw [hxe, show wt2 0 0 = 0 from rfl]
    simp only [rsDecode, hc0]
    rfl
  · have hsynd : synd (vecXor (encodeRS bs) (errVec2 p1 v1 p2 v2)) =
        synd (errVec2 p1 v1 p2 v2) :=
      synd_vecXor_codeword _ _ hc0 hlen hcmem hemem
    have hcorr := rsCorrect_errVec2 p1 p2 v1 v2 hp1 hp2 hne hv1 hv2 hz
    have hwtpos : 1 ≤ wt2 v1 v2 := by
      rw [wt2]
      rcases Decidable.not_and_iff_or_not.mp hz with h | h <;> simp [h]
    have hSne : (synd (errVec2 p1 v1 p2 v2)).all (· = 0) = false := by
      by_contra hcon
      have htrue : (synd (errVec2 p1 v1 p2 v2)).all (· = 0) = true :=
        eq_true_of_ne_false (fun h => hcon (h ▸ rfl))
      have hz4 : synd (errVec2 p1 v1 p2 v2) = [0, 0, 0, 0] := by
        have := all_zero_eq_replicate _ htrue
        rw [synd_length] at this
        simpa using this
      rw [hz4, rsCorrect_zero_syndromes] at hcorr
      have := congrArg Prod.snd ((Option.some.injEq _ _).mp hcorr)
      simp only at this
      omega
    simp only [rsDecode, hsynd, hSne]
    rw [hcorr]
    simp only [Bool.false_eq_true, if_false]
    rw [vecXor_cancel _ _ hlen]

/-! ## Character/symbol conversion facts -/

theorem charSym_lt4 (c : Char) (n : Nat) (h : charSym c = some n) : n < 4 := by
  unfold charSym at h
  split at h <;> simp_all <;> omega

theorem charSymD_lt4 (c : Char) (h : (charSym c).isSome = true) : charSymD c < 4 := by
  obtain ⟨n, hn⟩ := Option.isSome_iff_exists.mp h
  rw [charSymD, hn]
  exact charSym_lt4 c n hn

theorem symChar_charSymD :
    ∀ c : Char, c = 'A' ∨ c = 'C' ∨ c = 'G' ∨ c = 'T' → symChar (charSymD c) = some c := by
  intro c h
  rcases h with rfl | rfl | rfl | rfl <;> rfl

theorem charSym_isSome_of_upper (c : Char) (h : c = 'A' ∨ c = 'C' ∨ c = 'G' ∨ c = 'T') :
    (charSym c).isSome = true := by
  rcases h with rfl | rfl | rfl | rfl <;> rfl

theorem symChar_of_lt4 (n : Nat) (h : n < 4) :
    symChar n = some (symCharD n) ∧ (symCharD n = 'A' ∨ symCharD n = 'C' ∨
      symCharD n = 'G' ∨ symCharD n = 'T') := by
  interval_cases n <;> simp [symChar, symCharD]

theorem dnaToSymbols_of_valid :
    ∀ (l : List Char), (∀ c ∈ l, (charSym c).isSome = true) →
      dnaToSymbols l = some (l.map charSymD) := by
  intro l
  induction l with
  | nil => intro _; rfl
  | cons c l ih =>
    intro h
    have hc := h c (List.mem_cons_self c l)
    obtain ⟨n, hn⟩ := Option.isSome_iff_exists.mp hc
    have hl := ih (fun d hd => h d (List.mem_cons_of_mem c hd))
    simp only [dnaToSymbols] at hl ⊢
    rw [List.mapM_cons, hn, hl]
    simp [charSymD, hn]

theorem symsToDna_map_charSymD :
    ∀ (b : List Char), (∀ c ∈ b, c = 'A' ∨ c = 'C' ∨ c = 'G' ∨ c = 'T') →
      symsToDna (b.map charSymD) = some b := by
  intro b
  induction b with
  | nil => intro _; rfl
  | cons c b ih =>
    intro h
    have hc := symChar_charSymD c (h c (List.mem_cons_self c b))
    have hb := ih (fun d hd => h d (List.mem_cons_of_mem c hd))
    simp only [symsToDna] at hb ⊢
    rw [List.map_cons, List.mapM_cons, hc, hb]
    rfl

theorem symsToDna_of_lt4 :
    ∀ (w : List Nat), (∀ a ∈ w, a < 4) → symsToDna w = some (w.map symCharD) := by
  intro w
  induction w with
  | nil => intro _; rfl
  | cons n w ih =>
    intro h
    have hn := (symChar_of_lt4 n (h n (List.mem_cons_self n w))).1
    have hw := ih (fun a ha => h a (List.mem_cons_of_mem n ha))
    simp only [symsToDna] at hw ⊢
    rw [List.mapM_cons, hn, hw, List.map_cons]
    rfl

theorem validateDna_true (dna : List Char) (hne : dna ≠ [])
    (h : ∀ c ∈ dna, (charSym c).isSome = true) : validateDna dna = true := by
  simp only [validateDna, Bool.and_eq_true, List.all_eq_true]
  exact ⟨by simpa using hne, h⟩

/-! ## Wrapper characterizations -/

/-- On a conforming block, `encode` succeeds and returns the input string
unchanged together with the 4 parity symbols. -/
theorem dnaEncode_ok (b : List Char) (h11 : b.length = 11)
    (hv : ∀ c ∈ b, (charSym c).isSome = true) :
    dnaEncode b = .ok (b, rsRemainder (b.map charSymD)) := by
  have hne : b ≠ [] := by intro h; rw [h] at h11; simp at h11
  have hval := validateDna_true b hne hv
  have hsyms := dnaToSymbols_of_valid b hv
  have hdrop : (encodeRS (b.map charSymD)).drop 11 = rsRemainder (b.map charSymD) := by
    have hlen : (b.map charSymD).length = 11 := by simp [h11]
    rw [encodeRS, ← hlen, List.drop_left]
  simp only [dnaEncode, hval, hsyms, h11]
  simpa using hdrop

/-- Unfolding `decode` on conforming inputs down to the modelled RS core. -/
theorem dnaDecode_ok_of_rsDecode (dna : List Char) (ecc : List Nat)
    (h11 : dna.length = 11) (hv : ∀ c ∈ dna, (charSym c).isSome = true)
    (hecc : ecc.length = 4) (w : List Nat) (cnt : Nat)
    (hrs : rsDecode (dna.map charSymD ++ ecc) = some (w, cnt))
    (out : List Char) (hout : symsToDna (w.take 11) = some out) :
    dnaDecode dna ecc = .ok out := by
  have hne : dna ≠ [] := by intro h; rw [h] at h11; simp at h11
  have hval := validateDna_true dna hne hv
  have hsyms := dnaToSymbols_of_valid dna hv
  simp only [dnaDecode, hval, hsyms, h11, hecc, hrs, hout]
  rfl

/-- Unfolding `decode` on conforming inputs when the RS core fails. -/
theorem dnaDecode_err_of_rsDecode (dna : List Char) (ecc : List Nat)
    (h11 : dna.length = 11) (hv : ∀ c ∈ dna, (charSym c).isSome = true)
    (hecc : ecc.length = 4)
    (hrs : rsDecode (dna.map charSymD ++ ecc) = none) :
    dnaDecode dna ecc = .error .rsFailure := by
  have hne : dna ≠ [] := by intro h; rw [h] at h11; simp at h11
  have hval := validateDna_true dna hne hv
  have hsyms := dnaToSymbols_of_valid dna hv
  simp only [dnaDecode, hval, hsyms, h11, hecc, hrs]
  rfl

/-! ## Substitutions on the data string as error vectors -/

theorem set2_eq_vecXor (bs : List Nat) (h11 : bs.length = 11) (p1 p2 s1 s2 : Nat)
    (hp1 : p1 < 11) (hp2 : p2 < 11) (hne : p1 ≠ p2) :
    (bs.set p1 s1).set p2 s2 =
      vecXor bs (((List.replicate 11 0).set p1 (bs.getD p1 0 ^^^ s1)).set p2
        (bs.getD p2 0 ^^^ s2)) := by
  have hxor : ∀ a b : Nat, a ^^^ (a ^^^ b) = b := by
    intro a b
    rw [← Nat.xor_assoc, Nat.xor_self, Nat.zero_xor]
  refine List.ext_getElem (by simp [vecXor, h11]) ?_
  intro n h1 h2
  have hn : n < 11 := by simpa [h11] using h1
  have hnb : n < bs.length := by omega
  simp only [vecXor] at h2 ⊢
  rw [List.getElem_zipWith]
  by_cases hn2 : p2 = n
  · subst hn2
    rw [List.getElem_set_self, List.getElem_set_self]
    have hgetd : bs.getD p2 0 = bs[p2] := List.getD_eq_getElem bs 0 hnb
    simp only [gfAdd, hgetd, hxor]
  · rw [List.getElem_set_ne hn2, List.getElem_set_ne hn2]
    by_cases hn1 : p1 = n
    · subst hn1
      rw [List.getElem_set_self, List.getElem_set_self]
      have hgetd : bs.getD p1 0 = bs[p1] := List.getD_eq_getElem bs 0 hnb
      simp only [gfAdd, hgetd, hxor]
    · rw [List.getElem_set_ne hn1, List.getElem_set_ne hn1, List.getElem_replicate]
      simp [gfAdd]

theorem errVec2_eq_append (p1 d1 p2 d2 : Nat) (hp1 : p1 < 11) (hp2 : p2 < 11) :
    errVec2 p1 d1 p2 d2 =
      ((List.replicate 11 0).set p1 d1).set p2 d2 ++ List.replicate 4 0 := by
  have hsplit : (List.replicate 15 (0 : Nat)) =
      List.replicate 11 0 ++ List.replicate 4 0 := by
    rw [← List.replicate_add]
  simp only [errVec2, unitVec, hsplit]
  rw [List.set_append, if_pos (by simp; omega), List.set_append,
    if_pos (by simp; omega)]

/-! ## Common facts about a valid uppercase block -/

theorem mapped_block_facts (b : List Char) (h11 : b.length = 11)
    (hv : ∀ c ∈ b, (charSym c).isSome = true) :
    (b.map charSymD).length = 11 ∧ (∀ a ∈ b.map charSymD, a < 4) := by
  constructor
  · simp [h11]
  · intro a ha
    obtain ⟨c, hc, rfl⟩ := List.mem_map.mp ha
    exact charSymD_lt4 c (hv c hc)

/-- The corrupted data string (two base substitutions) maps to the codeword
xor a two-position error vector. -/
theorem corrupted_block_eq (b : List Char) (h11 : b.length = 11)
    (hv : ∀ c ∈ b, (charSym c).isSome = true)
    (p1 p2 : Nat) (hp1 : p1 < 11) (hp2 : p2 < 11) (hne : p1 ≠ p2) (c1 c2 : Char) :
    ((b.set p1 c1).set p2 c2).map charSymD ++ rsRemainder (b.map charSymD) =
      vecXor (encodeRS (b.map charSymD))
        (errVec2 p1 ((b.map charSymD).getD p1 0 ^^^ charSymD c1)
          p2 ((b.map charSymD).getD p2 0 ^^^ charSymD c2)) := by
  obtain ⟨h11s, hbs4⟩ := mapped_block_facts b h11 hv
  have hbs16 : ∀ a ∈ b.map charSymD, a < 16 := fun a ha => by have := hbs4 a ha; omega
  have hmap : ((b.set p1 c1).set p2 c2).map charSymD =
      ((b.map charSymD).set p1 (charSymD c1)).set p2 (charSymD c2) := by
    rw [List.map_set, List.map_set]
  have hset := set2_eq_vecXor (b.map charSymD) h11s p1 p2 (charSymD c1) (charSymD c2)
    hp1 hp2 hne
  have heccrep : List.replicate 4 (0 : Nat) =
      List.replicate (rsRemainder (b.map charSymD)).length 0 := by
    rw [rsRemainder_length _ h11s hbs16]
  have hecczero : vecXor (rsRemainder (b.map charSymD)) (List.replicate 4 0) =
      rsRemainder (b.map charSymD) := by
    rw [heccrep, vecXor_zero_right]
  rw [hmap, hset, errVec2_eq_append _ _ _ _ hp1 hp2, encodeRS,
    vecXor_append _ _ _ _ (by simp [h11s]), hecczero]

/-- C1: for every valid 11-base DNA block `b` and every pattern of at most
t = 2 base substitutions applied to the data portion of `encode(b)` (which
is `b` itself: substitutions at two distinct data positions, each replaced
by an arbitrary valid base, possibly the original one), calling `decode` on
the corrupted data with the original ecc symbols returns `b` exactly. -/
theorem claim_C1_correction_up_to_bound (b : List Char) (h11 : b.length = 11)
    (hb : ∀ c ∈ b, c = 'A' ∨ c = 'C' ∨ c = 'G' ∨ c = 'T')
    (p1 p2 : Nat) (hp1 : p1 < 11) (hp2 : p2 < 11) (hne : p1 ≠ p2) (c1 c2 : Char)
    (hc1 : c1 = 'A' ∨ c1 = 'C' ∨ c1 = 'G' ∨ c1 = 'T')
    (hc2 : c2 = 'A' ∨ c2 = 'C' ∨ c2 = 'G' ∨ c2 = 'T') :
    dnaEncode b = .ok (b, rsRemainder (b.map charSymD)) ∧
    dnaDecode ((b.set p1 c1).set p2 c2) (rsRemainder (b.map charSymD)) = .ok b := by
  have hv : ∀ c ∈ b, (charSym c).isSome = true :=
    fun c hc => charSym_isSome_of_upper c (hb c hc)
  obtain ⟨h11s, hbs4⟩ := mapped_block_facts b h11 hv
  have hbs16 : ∀ a ∈ b.map charSymD, a < 16 := fun a ha => by have := hbs4 a ha; omega
  refine ⟨dnaEncode_ok b h11 hv, ?_⟩
  have hgd1 : (b.map charSymD).getD p1 0 < 4 := by
    rw [List.getD_eq_getElem _ 0 (by omega)]
    exact hbs4 _ (List.getElem_mem _)
  have hgd2 : (b.map charSymD).getD p2 0 < 4 := by
    rw [List.getD_eq_getElem _ 0 (by omega)]
    exact hbs4 _ (List.getElem_mem _)
  have hd1 : (b.map charSymD).getD p1 0 ^^^ charSymD c1 < 4 :=
    xor_lt4 _ hgd1 _ (charSymD_lt4 c1 (charSym_isSome_of_upper c1 hc1))
  have hd2 : (b.map charSymD).getD p2 0 ^^^ charSymD c2 < 4 :=
    xor_lt4 _ hgd2 _ (charSymD_lt4 c2 (charSym_isSome_of_upper c2 hc2))
  have hrs := rsDecode_twoErrors (b.map charSymD) h11s hbs4 p1 p2 _ _ hp1 hp2 hne hd1 hd2
  rw [← corrupted_block_eq b h11 hv p1 p2 hp1 hp2 hne c1 c2] at hrs
  have hcorrv : ∀ c ∈ (b.set p1 c1).set p2 c2, (charSym c).isSome = true := by
    intro c hc
    rcases List.mem_or_eq_of_mem_set hc with hc' | rfl
    · rcases List.mem_or_eq_of_mem_set hc' with hc'' | rfl
      · exact hv c hc''
      · exact charSym_isSome_of_upper c hc1
    · exact charSym_isSome_of_upper c hc2
  have htake : (encodeRS (b.map charSymD)).take 11 = b.map charSymD := by
    rw [encodeRS, ← h11s, List.take_left]
  refine dnaDecode_ok_of_rsDecode _ _ (by simp [h11]) hcorrv
    (rsRemainder_length _ h11s hbs16) _ _ hrs b ?_
  rw [htake]
  exact symsToDna_map_charSymD b hb

/-- C1 witness: a concrete block with two concrete substitutions. -/
theorem claim_C1_witness :
    dnaEncode ['A', 'C', 'G', 'T', 'A', 'C', 'G', 'T', 'A', 'C', 'G'] =
      .ok (['A', 'C', 'G', 'T', 'A', 'C', 'G', 'T', 'A', 'C', 'G'],
        rsRemainder (['A', 'C', 'G', 'T', 'A', 'C', 'G', 'T', 'A', 'C', 'G'].map charSymD)) ∧
    dnaDecode ((['A', 'C', 'G', 'T', 'A', 'C', 'G', 'T', 'A', 'C', 'G'].set 0 'T').set 5 'A')
      (rsRemainder (['A', 'C', 'G', 'T', 'A', 'C', 'G', 'T', 'A', 'C', 'G'].map charSymD)) =
      .ok ['A', 'C', 'G', 'T', 'A', 'C', 'G', 'T', 'A', 'C', 'G'] :=
  claim_C1_correction_up_to_bound
    ['A', 'C', 'G', 'T', 'A', 'C', 'G', 'T', 'A', 'C', 'G'] (by decide) (by decide)
    0 5 (by decide) (by decide) (by decide) 'T' 'A' (by decide) (by decide)

/-- C2: for every valid 11-base DNA block `b` (over the canonical uppercase
alphabet), encoding `b` and then decoding the unmodified data together with
the returned ecc symbols yields `b` unchanged, and the modelled RS decoder
reports zero errors found. -/
theorem claim_C2_roundtrip_no_errors (b : List Char) (h11 : b.length = 11)
    (hb : ∀ c ∈ b, c = 'A' ∨ c = 'C' ∨ c = 'G' ∨ c = 'T') :
    dnaEncode b = .ok (b, rsRemainder (b.map charSymD)) ∧
    dnaDecode b (rsRemainder (b.map charSymD)) = .ok b ∧
    rsDecode (b.map charSymD ++ rsRemainder (b.map charSymD)) =
      some (encodeRS (b.map charSymD), 0) := by
  have hv : ∀ c ∈ b, (charSym c).isSome = true :=
    fun c hc => charSym_isSome_of_upper c (hb c hc)
  obtain ⟨h11s, hbs4⟩ := mapped_block_facts b h11 hv
  have hbs16 : ∀ a ∈ b.map charSymD, a < 16 := fun a ha => by have := hbs4 a ha; omega
  have hblock : b.map charSymD ++ rsRemainder (b.map charSymD) =
      encodeRS (b.map charSymD) := rfl
  have hrs : rsDecode (b.map charSymD ++ rsRemainder (b.map charSymD)) =
      some (encodeRS (b.map charSymD), 0) := by
    rw [hblock]
    simp only [rsDecode, synd_encodeRS _ h11s hbs16]
    rfl
  have htake : (encodeRS (b.map charSymD)).take 11 = b.map charSymD := by
    rw [encodeRS, ← h11s, List.take_left]
  refine ⟨dnaEncode_ok b h11 hv, ?_, hrs⟩
  refine dnaDecode_ok_of_rsDecode b _ h11 hv (rsRemainder_length _ h11s hbs16) _ _ hrs b ?_
  rw [htake]
  exact symsToDna_map_charSymD b hb

/-- C2 witness: the spec's concrete scenario block. -/
theorem claim_C2_witness :
    dnaEncode ['A', 'C', 'G', 'T', 'A', 'C', 'G', 'T', 'A', 'C', 'G'] =
      .ok (['A', 'C', 'G', 'T', 'A', 'C', 'G', 'T', 'A', 'C', 'G'],
        rsRemainder (['A', 'C', 'G', 'T', 'A', 'C', 'G', 'T', 'A', 'C', 'G'].map charSymD)) ∧
    dnaDecode ['A', 'C', 'G', 'T', 'A', 'C', 'G', 'T', 'A', 'C', 'G']
      (rsRemainder (['A', 'C', 'G', 'T', 'A', 'C', 'G', 'T', 'A', 'C', 'G'].map charSymD)) =
      .ok ['A', 'C', 'G', 'T', 'A', 'C', 'G', 'T', 'A', 'C', 'G'] ∧
    rsDecode (['A', 'C', 'G', 'T', 'A', 'C', 'G', 'T', 'A', 'C', 'G'].map charSymD ++
        rsRemainder (['A', 'C', 'G', 'T', 'A', 'C', 'G', 'T', 'A', 'C', 'G'].map charSymD)) =
      some (encodeRS (['A', 'C', 'G', 'T', 'A', 'C', 'G', 'T', 'A', 'C', 'G'].map charSymD), 0) :=
  claim_C2_roundtrip_no_errors
    ['A', 'C', 'G', 'T', 'A', 'C', 'G', 'T', 'A', 'C', 'G'] (by decide) (by decide)

/-! ## Three-error patterns (beyond the correction bound) -/

theorem errVec3_length (p1 v1 p2 v2 p3 v3 : Nat) :
    (errVec3 p1 v1 p2 v2 p3 v3).length = 15 := by simp [errVec3]

theorem errVec3_mem_lt4 (p1 v1 p2 v2 p3 v3 : Nat) (hv1 : v1 < 4) (hv2 : v2 < 4)
    (hv3 : v3 < 4) : ∀ a ∈ errVec3 p1 v1 p2 v2 p3 v3, a < 4 := by
  intro a ha
  rcases List.mem_or_eq_of_mem_set ha with h1 | rfl
  · rcases List.mem_or_eq_of_mem_set h1 with h2 | rfl
    · rcases List.mem_or_eq_of_mem_set h2 with h3 | rfl
      · have := List.eq_of_mem_replicate h3; omega
      · exact hv1
    · exact hv2
  · exact hv3

theorem set3_eq_vecXor (bs : List Nat) (h11 : bs.length = 11) (p1 p2 p3 s1 s2 s3 : Nat)
    (hp1 : p1 < 11) (hp2 : p2 < 11) (hp3 : p3 < 11)
    (h12 : p1 ≠ p2) (h13 : p1 ≠ p3) (h23 : p2 ≠ p3) :
    ((bs.set p1 s1).set p2 s2).set p3 s3 =
      vecXor bs ((((List.replicate 11 0).set p1 (bs.getD p1 0 ^^^ s1)).set p2
        (bs.getD p2 0 ^^^ s2)).set p3 (bs.getD p3 0 ^^^ s3)) := by
  have hxor : ∀ a b : Nat, a ^^^ (a ^^^ b) = b := by
    intro a b
    rw [← Nat.xor_assoc, Nat.xor_self, Nat.zero_xor]
  refine List.ext_getElem (by simp [vecXor, h11]) ?_
  intro n h1 h2
  have hn : n < 11 := by simpa [h11] using h1
  have hnb : n < bs.length := by omega
  simp only [vecXor] at h2 ⊢
  rw [List.getElem_zipWith]
  by_cases hn3 : p3 = n
  · subst hn3
    rw [List.getElem_set_self, List.getElem_set_self]
    have hgetd : bs.getD p3 0 = bs[p3] := List.getD_eq_getElem bs 0 hnb
    simp only [gfAdd, hgetd, hxor]
  · rw [List.getElem_set_ne hn3, List.getElem_set_ne hn3]
    by_cases hn2 : p2 = n
    · subst hn2
      rw [List.getElem_set_self, List.getElem_set_self]
      have hgetd : bs.getD p2 0 = bs[p2] := List.getD_eq_getElem bs 0 hnb
      simp only [gfAdd, hgetd, hxor]
    · rw [List.getElem_set_ne hn2, List.getElem_set_ne hn2]
      by_cases hn1 : p1 = n
      · subst hn1
        rw [List.getElem_set_self, List.getElem_set_self]
        have hgetd : bs.getD p1 0 = bs[p1] := List.getD_eq_getElem bs 0 hnb
        simp only [gfAdd, hgetd, hxor]
      · rw [List.getElem_set_ne hn1, List.getElem_set_ne hn1, List.getElem_replicate]
        simp [gfAdd]

theorem errVec3_eq_append (p1 d1 p2 d2 p3 d3 : Nat) (hp1 : p1 < 11) (hp2 : p2 < 11)
    (hp3 : p3 < 11) :
    errVec3 p1 d1 p2 d2 p3 d3 =
      (((List.replicate 11 0).set p1 d1).set p2 d2).set p3 d3 ++ List.replicate 4 0 := by
  have hsplit : (List.replicate 15 (0 : Nat)) =
      List.replicate 11 0 ++ List.replicate 4 0 := by
    rw [← List.replicate_add]
  simp only [errVec3, hsplit]
  rw [List.set_append, if_pos (by simp; omega), List.set_append,
    if_pos (by simp; omega), List.set_append, if_pos (by simp; omega)]

/-- The data string with three base substitutions maps to the codeword xor a
three-position error vector. -/
theorem corrupted3_block_eq (b : List Char) (h11 : b.length = 11)
    (hv : ∀ c ∈ b, (charSym c).isSome = true)
    (p1 p2 p3 : Nat) (hp1 : p1 < 11) (hp2 : p2 < 11) (hp3 : p3 < 11)
    (h12 : p1 ≠ p2) (h13 : p1 ≠ p3) (h23 : p2 ≠ p3) (c1 c2 c3 : Char) :
    (((b.set p1 c1).set p2 c2).set p3 c3).map charSymD ++ rsRemainder (b.map charSymD) =
      vecXor (encodeRS (b.map charSymD))
        (errVec3 p1 ((b.map charSymD).getD p1 0 ^^^ charSymD c1)
          p2 ((b.map charSymD).getD p2 0 ^^^ charSymD c2)
          p3 ((b.map charSymD).getD p3 0 ^^^ charSymD c3)) := by
  obtain ⟨h11s, hbs4⟩ := mapped_block_facts b h11 hv
  have hbs16 : ∀ a ∈ b.map charSymD, a < 16 := fun a ha => by have := hbs4 a ha; omega
  have hmap : (((b.set p1 c1).set p2 c2).set p3 c3).map charSymD =
      (((b.map charSymD).set p1 (charSymD c1)).set p2 (charSymD c2)).set p3 (charSymD c3) := by
    rw [List.map_set, List.map_set, List.map_set]
  have hset := set3_eq_vecXor (b.map charSymD) h11s p1 p2 p3 (charSymD c1) (charSymD c2)
    (charSymD c3) hp1 hp2 hp3 h12 h13 h23
  have heccrep : List.replicate 4 (0 : Nat) =
      List.replicate (rsRemainder (b.map charSymD)).length 0 := by
    rw [rsRemainder_length _ h11s hbs16]
  have hecczero : vecXor (rsRemainder (b.map charSymD)) (List.replicate 4 0) =
      rsRemainder (b.map charSymD) := by
    rw [heccrep, vecXor_zero_right]
  rw [hmap, hset, errVec3_eq_append _ _ _ _ _ _ hp1 hp2 hp3, encodeRS,
    vecXor_append _ _ _ _ (by simp [h11s]), hecczero]

theorem charSymD_symCharD : ∀ n : Nat, n < 4 → charSymD (symCharD n) = n := by decide

theorem getD_map_charSymD (b : List Char) (p : Nat) (hp : p < b.length) :
    (b.map charSymD).getD p 0 = charSymD (b.getD p 'A') := by
  rw [List.getD_eq_getElem _ 0 (by simpa using hp), List.getD_eq_getElem _ 'A' hp,
    List.getElem_map]

/-- The concrete three-error pattern used for C7: under-bound positions 0, 5
and 9 with magnitudes 3, 2 and 1, the correction core detects an
uncorrectable word. -/
theorem e3c_synd_nonzero : (synd (errVec3 0 3 5 2 9 1)).all (· = 0) = false := by decide

theorem e3c_uncorrectable : rsCorrect (synd (errVec3 0 3 5 2 9 1)) = none := by decide

theorem xor_ne_self (a d : Nat) (hd : d ≠ 0) : a ^^^ d ≠ a := by
  intro h
  apply hd
  calc d = a ^^^ (a ^^^ d) := by rw [← Nat.xor_assoc, Nat.xor_self, Nat.zero_xor]
    _ = a ^^^ a := by rw [h]
    _ = 0 := Nat.xor_self a

/-- C7: for every valid 11-base block `b` there is an error pattern of
size t+1 = 3 on the data portion for which decode fails with the
uncorrectable-error failure; and for every such size-3 pattern the decoder
never silently returns `b` claiming zero errors. -/
theorem claim_C7_bound_violation (b : List Char) (h11 : b.length = 11)
    (hb : ∀ c ∈ b, c = 'A' ∨ c = 'C' ∨ c = 'G' ∨ c = 'T') :
    (∃ p1 p2 p3 : Nat, ∃ c1 c2 c3 : Char,
      p1 < 11 ∧ p2 < 11 ∧ p3 < 11 ∧ p1 ≠ p2 ∧ p1 ≠ p3 ∧ p2 ≠ p3 ∧
      (c1 = 'A' ∨ c1 = 'C' ∨ c1 = 'G' ∨ c1 = 'T') ∧
      (c2 = 'A' ∨ c2 = 'C' ∨ c2 = 'G' ∨ c2 = 'T') ∧
      (c3 = 'A' ∨ c3 = 'C' ∨ c3 = 'G' ∨ c3 = 'T') ∧
      c1 ≠ b.getD p1 'A' ∧ c2 ≠ b.getD p2 'A' ∧ c3 ≠ b.getD p3 'A' ∧
      dnaDecode (((b.set p1 c1).set p2 c2).set p3 c3) (rsRemainder (b.map charSymD)) =
        .error .rsFailure) ∧
    (∀ p1 p2 p3 d1 d2 d3 : Nat, p1 < 11 → p2 < 11 → p3 < 11 →
      p1 ≠ p2 → p1 ≠ p3 → p2 ≠ p3 →
      d1 < 4 → d2 < 4 → d3 < 4 → d1 ≠ 0 → d2 ≠ 0 → d3 ≠ 0 →
      ∀ w : List Nat,
        rsDecode (vecXor (encodeRS (b.map charSymD)) (errVec3 p1 d1 p2 d2 p3 d3)) =
          some (w, 0) → w.take 11 ≠ b.map charSymD) := by
  have hv : ∀ c ∈ b, (charSym c).isSome = true :=
    fun c hc => charSym_isSome_of_upper c (hb c hc)
  obtain ⟨h11s, hbs4⟩ := mapped_block_facts b h11 hv
  have hbs16 : ∀ a ∈ b.map charSymD, a < 16 := fun a ha => by have := hbs4 a ha; omega
  have hclen : (encodeRS (b.map charSymD)).length = 15 := encodeRS_length _ h11s hbs16
  have hcmem : ∀ a ∈ encodeRS (b.map charSymD), a < 16 := encodeRS_mem_lt _ h11s hbs16
  have hc0 : synd (encodeRS (b.map charSymD)) = [0, 0, 0, 0] := synd_encodeRS _ h11s hbs16
  have hxorc : ∀ a c : Nat, a ^^^ (a ^^^ c) = c := by
    intro a c
    rw [← Nat.xor_assoc, Nat.xor_self, Nat.zero_xor]
  constructor
  · -- the concrete failing pattern: positions 0, 5, 9 with magnitudes 3, 2, 1
    have hgd : ∀ p : Nat, p < 11 → (b.map charSymD).getD p 0 < 4 := by
      intro p hp
      rw [List.getD_eq_getElem _ 0 (by omega)]
      exact hbs4 _ (List.getElem_mem _)
    have hgdm : ∀ p : Nat, (hp : p < 11) →
        (b.map charSymD).getD p 0 = charSymD (b.getD p 'A') :=
      fun p hp => getD_map_charSymD b p (by omega)
    refine ⟨0, 5, 9, symCharD ((b.map charSymD).getD 0 0 ^^^ 3),
      symCharD ((b.map charSymD).getD 5 0 ^^^ 2),
      symCharD ((b.map charSymD).getD 9 0 ^^^ 1), by omega, by omega, by omega,
      by omega, by omega, by omega, ?_, ?_, ?_, ?_, ?_, ?_, ?_⟩
    · exact (symChar_of_lt4 _ (xor_lt4 _ (hgd 0 (by omega)) _ (by omega))).2
    · exact (symChar_of_lt4 _ (xor_lt4 _ (hgd 5 (by omega)) _ (by omega))).2
    · exact (symChar_of_lt4 _ (xor_lt4 _ (hgd 9 (by omega)) _ (by omega))).2
    · intro heq
      have h1 : charSymD (symCharD ((b.map charSymD).getD 0 0 ^^^ 3)) =
          (b.map charSymD).getD 0 0 ^^^ 3 :=
        charSymD_symCharD _ (xor_lt4 _ (hgd 0 (by omega)) _ (by omega))
      have h2 := congrArg charSymD heq
      rw [h1, ← hgdm 0 (by omega)] at h2
      exact xor_ne_self _ 3 (by omega) h2
    · intro heq
      have h1 : charSymD (symCharD ((b.map charSymD).getD 5 0 ^^^ 2)) =
          (b.map charSymD).getD 5 0 ^^^ 2 :=
        charSymD_symCharD _ (xor_lt4 _ (hgd 5 (by omega)) _ (by omega))
      have h2 := congrArg charSymD heq
      rw [h1, ← hgdm 5 (by omega)] at h2
      exact xor_ne_self _ 2 (by omega) h2
    · intro heq
      have h1 : charSymD (symCharD ((b.map charSymD).getD 9 0 ^^^ 1)) =
          (b.map charSymD).getD 9 0 ^^^ 1 :=
        charSymD_symCharD _ (xor_lt4 _ (hgd 9 (by omega)) _ (by omega))
      have h2 := congrArg charSymD heq
      rw [h1, ← hgdm 9 (by omega)] at h2
      exact xor_ne_self _ 1 (by omega) h2
    · -- decode fails: the block is the codeword xor the concrete pattern
      have hval1 : charSymD (symCharD ((b.map charSymD).getD 0 0 ^^^ 3)) =
          (b.map charSymD).getD 0 0 ^^^ 3 :=
        charSymD_symCharD _ (xor_lt4 _ (hgd 0 (by omega)) _ (by omega))
      have hval2 : charSymD (symCharD ((b.map charSymD).getD 5 0 ^^^ 2)) =
          (b.map charSymD).getD 5 0 ^^^ 2 :=
        charSymD_symCharD _ (xor_lt4 _ (hgd 5 (by omega)) _ (by omega))
      have hval3 : charSymD (symCharD ((b.map charSymD).getD 9 0 ^^^ 1)) =
          (b.map charSymD).getD 9 0 ^^^ 1 :=
        charSymD_symCharD _ (xor_lt4 _ (hgd 9 (by omega)) _ (by omega))
      have hblock := corrupted3_block_eq b h11 hv 0 5 9 (by omega) (by omega) (by omega)
        (by omega) (by omega) (by omega)
        (symCharD ((b.map charSymD).getD 0 0 ^^^ 3))
        (symCharD ((b.map charSymD).getD 5 0 ^^^ 2))
        (symCharD ((b.map charSymD).getD 9 0 ^^^ 1))
      rw [hval1, hval2, hval3, hxorc, hxorc, hxorc] at hblock
      have he16 : ∀ a ∈ errVec3 0 3 5 2 9 1, a < 16 := fun a ha => by
        have := errVec3_mem_lt4 0 3 5 2 9 1 (by omega) (by omega) (by omega) a ha; omega
      have hsynd : synd (vecXor (encodeRS (b.map charSymD)) (errVec3 0 3 5 2 9 1)) =
          synd (errVec3 0 3 5 2 9 1) :=
        synd_vecXor_codeword _ _ hc0 (by rw [hclen, errVec3_length]) hcmem he16
      have hnone : rsDecode (vecXor (encodeRS (b.map charSymD)) (errVec3 0 3 5 2 9 1)) =
          none := by
        simp only [rsDecode, hsynd, e3c_synd_nonzero, e3c_uncorrectable]
        rfl
      have hcorrv : ∀ c ∈ ((b.set 0 (symCharD ((b.map charSymD).getD 0 0 ^^^ 3))).set 5
          (symCharD ((b.map charSymD).getD 5 0 ^^^ 2))).set 9
          (symCharD ((b.map charSymD).getD 9 0 ^^^ 1)), (charSym c).isSome = true := by
        intro c hc
        rcases List.mem_or_eq_of_mem_set hc with hc' | rfl
        · rcases List.mem_or_eq_of_mem_set hc' with hc'' | rfl
          · rcases List.mem_or_eq_of_mem_set hc'' with hc3 | rfl
            · exact hv c hc3
            · exact charSym_isSome_of_upper _
                ((symChar_of_lt4 _ (xor_lt4 _ (hgd 0 (by omega)) _ (by omega))).2)
          · exact charSym_isSome_of_upper _
              ((symChar_of_lt4 _ (xor_lt4 _ (hgd 5 (by omega)) _ (by omega))).2)
        · exact charSym_isSome_of_upper _
            ((symChar_of_lt4 _ (xor_lt4 _ (hgd 9 (by omega)) _ (by omega))).2)
      refine dnaDecode_err_of_rsDecode _ _ (by simp [h11]) hcorrv
        (rsRemainder_length _ h11s hbs16) ?_
      rw [hblock]
      exact hnone
  · -- no size-3 pattern is silently decoded to b with zero errors reported
    intro p1 p2 p3 d1 d2 d3 hp1 hp2 hp3 h12 h13 h23 hd1 hd2 hd3 hn1 hn2 hn3 w hw
    have he16 : ∀ a ∈ errVec3 p1 d1 p2 d2 p3 d3, a < 16 := fun a ha => by
      have := errVec3_mem_lt4 p1 d1 p2 d2 p3 d3 hd1 hd2 hd3 a ha; omega
    have hrlen : (vecXor (encodeRS (b.map charSymD)) (errVec3 p1 d1 p2 d2 p3 d3)).length
        = 15 := by
      rw [vecXor_length, hclen, errVec3_length]
      exact min_self 15
    have hwr := rsDecode_count_zero _ w hrlen hw
    have hsplit := errVec3_eq_append p1 d1 p2 d2 p3 d3 hp1 hp2 hp3
    have he11len : ((((List.replicate 11 0).set p1 d1).set p2 d2).set p3 d3 : List Nat).length
        = 11 := by simp
    have hvecsplit : vecXor (encodeRS (b.map charSymD)) (errVec3 p1 d1 p2 d2 p3 d3) =
        vecXor (b.map charSymD) ((((List.replicate 11 0).set p1 d1).set p2 d2).set p3 d3) ++
          vecXor (rsRemainder (b.map charSymD)) (List.replicate 4 0) := by
      rw [hsplit, encodeRS, vecXor_append _ _ _ _ (by rw [h11s, he11len])]
    have htake : w.take 11 =
        vecXor (b.map charSymD) ((((List.replicate 11 0).set p1 d1).set p2 d2).set p3 d3) := by
      rw [hwr, hvecsplit]
      have hlen11 : (vecXor (b.map charSymD)
          ((((List.replicate 11 0).set p1 d1).set p2 d2).set p3 d3)).length = 11 := by
        rw [vecXor_length, h11s, he11len]
        exact min_self 11
      rw [List.take_left' hlen11]
    intro hcon
    rw [htake] at hcon
    have hz := vecXor_eq_self _ _ (by rw [h11s, he11len]) hcon
    rw [h11s] at hz
    have hd3get : ((((List.replicate 11 0).set p1 d1).set p2 d2).set p3 d3 : List Nat).getD
        p3 0 = d3 := by
      rw [List.getD_eq_getElem _ 0 (by rw [he11len]; omega), List.getElem_set_self]
    rw [hz] at hd3get
    rw [List.getD_eq_getElem _ 0 (by simp; omega), List.getElem_replicate] at hd3get
    exact hn3 hd3get.symm

/-- C7 witness: the bound-violation dichotomy at a concrete block. -/
theorem claim_C7_witness :
    (∃ p1 p2 p3 : Nat, ∃ c1 c2 c3 : Char,
      p1 < 11 ∧ p2 < 11 ∧ p3 < 11 ∧ p1 ≠ p2 ∧ p1 ≠ p3 ∧ p2 ≠ p3 ∧
      (c1 = 'A' ∨ c1 = 'C' ∨ c1 = 'G' ∨ c1 = 'T') ∧
      (c2 = 'A' ∨ c2 = 'C' ∨ c2 = 'G' ∨ c2 = 'T') ∧
      (c3 = 'A' ∨ c3 = 'C' ∨ c3 = 'G' ∨ c3 = 'T') ∧
      c1 ≠ (['A', 'C', 'G', 'T', 'A', 'C', 'G', 'T', 'A', 'C', 'G'] : List Char).getD p1 'A' ∧
      c2 ≠ (['A', 'C', 'G', 'T', 'A', 'C', 'G', 'T', 'A', 'C', 'G'] : List Char).getD p2 'A' ∧
      c3 ≠ (['A', 'C', 'G', 'T', 'A', 'C', 'G', 'T', 'A', 'C', 'G'] : List Char).getD p3 'A' ∧
      dnaDecode (((['A', 'C', 'G', 'T', 'A', 'C', 'G', 'T', 'A', 'C', 'G'].set p1 c1).set
          p2 c2).set p3 c3)
        (rsRemainder (['A', 'C', 'G', 'T', 'A', 'C', 'G', 'T', 'A', 'C', 'G'].map charSymD)) =
        .error .rsFailure) ∧
    (∀ p1 p2 p3 d1 d2 d3 : Nat, p1 < 11 → p2 < 11 → p3 < 11 →
      p1 ≠ p2 → p1 ≠ p3 → p2 ≠ p3 →
      d1 < 4 → d2 < 4 → d3 < 4 → d1 ≠ 0 → d2 ≠ 0 → d3 ≠ 0 →
      ∀ w : List Nat,
        rsDecode (vecXor
          (encodeRS (['A', 'C', 'G', 'T', 'A', 'C', 'G', 'T', 'A', 'C', 'G'].map charSymD))
          (errVec3 p1 d1 p2 d2 p3 d3)) = some (w, 0) →
          w.take 11 ≠ ['A', 'C', 'G', 'T', 'A', 'C', 'G', 'T', 'A', 'C', 'G'].map charSymD) :=
  claim_C7_bound_violation ['A', 'C', 'G', 'T', 'A', 'C', 'G', 'T', 'A', 'C', 'G']
    (by decide) (by decide)

/-! ## Validation behaviour of the wrapper -/

theorem validateDna_false_of_invalid (dna : List Char)
    (h : ¬∀ c ∈ dna, (charSym c).isSome = true) : validateDna dna = false := by
  have hall : dna.all (fun c => (charSym c).isSome) = false := by
    rcases Bool.eq_false_or_eq_true (dna.all fun c => (charSym c).isSome) with ht | hf
    · exact absurd (fun c hc => List.all_eq_true.mp ht c hc) h
    · exact hf
  simp [validateDna, hall]

/-- C5: encode fails (with a validation error, producing no output) for every
input that is not exactly 11 valid DNA bases; decode fails for every call
whose DNA input is not exactly 11 valid bases or whose ecc is not exactly 4
symbols; on conforming inputs encode succeeds and decode never fails on
validation. -/
theorem claim_C5_validation (dna : List Char) (ecc : List Nat) :
    (¬(dna.length = 11 ∧ ∀ c ∈ dna, (charSym c).isSome = true) →
      ∃ e : CodecError, dnaEncode dna = .error e ∧ e.isValidation = true) ∧
    (¬(dna.length = 11 ∧ (∀ c ∈ dna, (charSym c).isSome = true) ∧ ecc.length = 4) →
      ∃ e : CodecError, dnaDecode dna ecc = .error e ∧ e.isValidation = true) ∧
    ((dna.length = 11 ∧ ∀ c ∈ dna, (charSym c).isSome = true) →
      ∃ out, dnaEncode dna = .ok out) ∧
    ((dna.length = 11 ∧ (∀ c ∈ dna, (charSym c).isSome = true) ∧ ecc.length = 4) →
      ∀ e : CodecError, dnaDecode dna ecc = .error e → e.isValidation = false) := by
  refine ⟨?_, ?_, ?_, ?_⟩
  · intro h
    by_cases hvc : ∀ c ∈ dna, (charSym c).isSome = true
    · have hlen : dna.length ≠ 11 := fun hl => h ⟨hl, hvc⟩
      by_cases hemp : dna = []
      · subst hemp
        exact ⟨.invalidDna, rfl, rfl⟩
      · have hval := validateDna_true dna hemp hvc
        refine ⟨.wrongDnaLength, ?_, rfl⟩
        simp [dnaEncode, hval, hlen]
    · have hval := validateDna_false_of_invalid dna hvc
      refine ⟨.invalidDna, ?_, rfl⟩
      simp [dnaEncode, hval]
  · intro h
    by_cases hvc : ∀ c ∈ dna, (charSym c).isSome = true
    · by_cases hlen : dna.length = 11
      · have hecc : ecc.length ≠ 4 := fun he => h ⟨hlen, hvc, he⟩
        have hemp : dna ≠ [] := by intro he; rw [he] at hlen; simp at hlen
        have hval := validateDna_true dna hemp hvc
        refine ⟨.wrongEccLength, ?_, rfl⟩
        simp [dnaDecode, hval, hlen, hecc]
      · by_cases hemp : dna = []
        · subst hemp
          exact ⟨.invalidDna, rfl, rfl⟩
        · have hval := validateDna_true dna hemp hvc
          refine ⟨.wrongDnaLength, ?_, rfl⟩
          simp [dnaDecode, hval, hlen]
    · have hval := validateDna_false_of_invalid dna hvc
      refine ⟨.invalidDna, ?_, rfl⟩
      simp [dnaDecode, hval]
  · intro ⟨h11, hvc⟩
    exact ⟨_, dnaEncode_ok dna h11 hvc⟩
  · intro ⟨h11, hvc, hecc⟩ e he
    have hemp : dna ≠ [] := by intro h; rw [h] at h11; simp at h11
    have hval := validateDna_true dna hemp hvc
    have hsyms := dnaToSymbols_of_valid dna hvc
    simp only [dnaDecode, hval, hsyms, h11, hecc] at he
    simp only [if_neg (by simp : ¬(11 : Nat) ≠ 11), if_neg (by omega : ¬(4 : Nat) ≠ 4)] at he
    rcases hrs : rsDecode (dna.map charSymD ++ ecc) with _ | w
    · rw [hrs] at he
      simp only at he
      have := (Except.error.injEq _ _).mp he
      rw [← this]
      rfl
    · rw [hrs] at he
      simp only at he
      rcases hout : symsToDna (w.1.take 11) with _ | out
      · rw [hout] at he
        simp only at he
        have := (Except.error.injEq _ _).mp he
        rw [← this]
        rfl
      · rw [hout] at he
        simp at he

/-- C5 witness: a short invalid input fails validation, a conforming block
encodes, a conforming decode never surfaces a validation error. -/
theorem claim_C5_witness :
    (∃ e : CodecError, dnaEncode ['A', 'C'] = .error e ∧ e.isValidation = true) ∧
    (∃ out, dnaEncode ['A', 'C', 'G', 'T', 'A', 'C', 'G', 'T', 'A', 'C', 'G'] = .ok out) :=
  ⟨(claim_C5_validation ['A', 'C'] []).1 (by decide),
   (claim_C5_validation ['A', 'C', 'G', 'T', 'A', 'C', 'G', 'T', 'A', 'C', 'G'] []).2.2.1
     (by decide)⟩

/-! ## Case handling of the wrapper -/

theorem symsToDna_upper (l : List Nat) :
    ∀ (out : List Char), symsToDna l = some out →
      ∀ c ∈ out, c = 'A' ∨ c = 'C' ∨ c = 'G' ∨ c = 'T' := by
  induction l with
  | nil =>
    intro out h c hc
    simp only [symsToDna, List.mapM_nil, Option.pure_def, Option.some.injEq] at h
    rw [← h] at hc
    simp at hc
  | cons n l ih =>
    intro out h c hc
    simp only [symsToDna, List.mapM_cons] at h
    rcases hn : symChar n with _ | c0
    · rw [hn] at h; simp at h
    · rw [hn] at h
      rcases hrest : l.mapM symChar with _ | out'
      · rw [hrest] at h; simp at h
      · rw [hrest] at h
        simp only [Option.bind_eq_bind, Option.some_bind, Option.pure_def,
          Option.some.injEq] at h
        rw [← h] at hc
        rcases List.mem_cons.mp hc with rfl | hc'
        · unfold symChar at hn
          split at hn <;> simp_all <;> tauto
        · exact ih out' hrest c hc'

/-- C6 counterexample: encoding an all-lowercase valid block succeeds but
returns the block in lowercase, not uppercase — the returned DNA string is
the input itself, not a canonicalized copy. -/
theorem claim_C6_counterexample :
    dnaEncode ['a', 'c', 'g', 't', 'a', 'c', 'g', 't', 'a', 'c', 'g'] =
      .ok (['a', 'c', 'g', 't', 'a', 'c', 'g', 't', 'a', 'c', 'g'], [9, 2, 5, 9]) ∧
    (['a', 'c', 'g', 't', 'a', 'c', 'g', 't', 'a', 'c', 'g'] : List Char) ≠
      ['A', 'C', 'G', 'T', 'A', 'C', 'G', 'T', 'A', 'C', 'G'] := by
  exact ⟨rfl, by decide⟩

/-- C6 (amended): encode and decode accept DNA case-insensitively (the
accepted alphabet is exactly the eight characters AaCcGgTt), every DNA
string decode returns is uppercase, but encode returns its input string
verbatim — an all-lowercase valid block encodes successfully and is returned
in lowercase, not uppercase. -/
theorem claim_C6_case_handling :
    (∀ (dna : List Char) (out : List Char × List Nat), dnaEncode dna = .ok out →
      out.1 = dna) ∧
    (∀ (dna : List Char) (ecc : List Nat) (out : List Char),
      dnaDecode dna ecc = .ok out → ∀ c ∈ out, c = 'A' ∨ c = 'C' ∨ c = 'G' ∨ c = 'T') ∧
    (∀ c : Char, (charSym c).isSome = true ↔
      (c = 'A' ∨ c = 'a' ∨ c = 'C' ∨ c = 'c' ∨ c = 'G' ∨ c = 'g' ∨
        c = 'T' ∨ c = 't')) := by
  refine ⟨?_, ?_, ?_⟩
  · intro dna out h
    simp only [dnaEncode] at h
    split at h
    · simp at h
    · split at h
      · simp at h
      · split at h
        · simp at h
        · have := (Except.ok.injEq _ _).mp h
          rw [← this]
  · intro dna ecc out h
    simp only [dnaDecode] at h
    split at h
    · simp at h
    · split at h
      · simp at h
      · split at h
        · simp at h
        · split at h
          · simp at h
          · rename_i syms hsyms
            split at h
            · simp at h
            · rename_i corr hcorr
              split at h
              · simp at h
              · rename_i outw hout
                have := (Except.ok.injEq _ _).mp h
                rw [← this]
                exact symsToDna_upper _ outw hout
  · intro c
    constructor
    · intro h
      unfold charSym at h
      split at h <;> simp_all
    · intro h
      rcases h with rfl | rfl | rfl | rfl | rfl | rfl | rfl | rfl <;> rfl

/-- C6 witness: decode of a lowercase-accepted input returns uppercase. -/
theorem claim_C6_witness :
    ('G' = 'A' ∨ 'G' = 'C' ∨ 'G' = 'G' ∨ 'G' = 'T') ∧ (charSym 't').isSome = true :=
  ⟨claim_C6_case_handling.2.1 ['a', 'c', 'g', 't', 'a', 'c', 'g', 't', 'a', 'c', 'g']
      [9, 2, 5, 9] ['A', 'C', 'G', 'T', 'A', 'C', 'G', 'T', 'A', 'C', 'G'] rfl 'G'
      (by decide),
   (claim_C6_case_handling.2.2 't').mpr (by decide)⟩

/-! ## Chunking round trip -/

theorem splitGo_flatten :
    ∀ (n : Nat) (s : List Char), s.length ≤ n → ∀ k : Nat, 0 < k →
      (splitGo n s k).flatten = s := by
  intro n
  induction n with
  | zero =>
    intro s hs k hk
    have : s = [] := List.length_eq_zero.mp (by omega)
    subst this
    rfl
  | succ n ih =>
    intro s hs k hk
    by_cases hemp : s = []
    · subst hemp
      rw [splitGo, if_pos (Or.inl rfl)]
      rfl
    · rw [splitGo, if_neg (by simp [hemp]; omega)]
      rw [List.flatten_cons]
      have hslen : 0 < s.length := List.length_pos.mpr hemp
      have hdrop : (s.drop k).length ≤ n := by
        rw [List.length_drop]; omega
      rw [ih (s.drop k) hdrop k hk, List.take_append_drop]

theorem splitIntoBlocks_flatten (s : List Char) (k : Nat) (hk : 0 < k) :
    (splitIntoBlocks s k).flatten = s :=
  splitGo_flatten s.length s (le_refl _) k hk

theorem map_getD_range {α : Type} (l : List α) (d : α) :
    (List.range l.length).map (fun i => l.getD i d) = l := by
  refine List.ext_getElem (by simp) ?_
  intro n h1 h2
  rw [List.getElem_map, List.getElem_range, List.getD_eq_getElem l d h2]

theorem padBlock_removePadding (blk : List Char) (k : Nat) (h : blk.length < k) :
    removePadding (padBlock blk k) blk.length = blk := by
  rw [padBlock, if_neg (by omega), removePadding,
    if_neg (by simp; omega)]
  exact List.take_left' rfl

theorem chunkRecombine_eq_flatten (s : List Char) (k : Nat) :
    chunkRecombine s k = (splitIntoBlocks s k).flatten := by
  unfold chunkRecombine
  congr 1
  refine Eq.trans (List.map_congr_left ?_) (map_getD_range (splitIntoBlocks s k) [])
  intro i _
  simp only
  by_cases hcond : i = (splitIntoBlocks s k).length - 1 ∧
      ((splitIntoBlocks s k).getD i []).length < k
  · simp only [if_pos hcond]
    exact padBlock_removePadding _ k hcond.2
  · simp only [if_neg hcond]

/-- C3: splitting a sequence into k-sized blocks, padding the final short
block with the filler base 'A', and recombining in chunk-index order with the
final block truncated back to its original length reproduces the sequence
exactly — including when the length is not a multiple of k and when it is
smaller than k. -/
theorem claim_C3_chunk_recombine (s : List Char) (k : Nat) (hs : s ≠ []) (hk : 0 < k) :
    chunkRecombine s k = s :=
  (chunkRecombine_eq_flatten s k).trans (splitIntoBlocks_flatten s k hk)

/-- C3 witness: a 25-base sequence (not a multiple of k = 11). -/
theorem claim_C3_witness :
    chunkRecombine ['A', 'C', 'G', 'T', 'A', 'C', 'G', 'T', 'A', 'C', 'G', 'T',
      'A', 'C', 'G', 'T', 'A', 'C', 'G', 'T', 'A', 'C', 'G', 'T', 'A'] 11 =
      ['A', 'C', 'G', 'T', 'A', 'C', 'G', 'T', 'A', 'C', 'G', 'T',
        'A', 'C', 'G', 'T', 'A', 'C', 'G', 'T', 'A', 'C', 'G', 'T', 'A'] :=
  claim_C3_chunk_recombine _ 11 (by decide) (by decide)

/-! ## Sequential / parallel pipeline equivalence -/

theorem seqCollect_eq (f : Nat → List Char → Option (List Char))
    (blocks : List (List Char)) :
    ∀ idxs : List Nat,
      seqCollect f blocks idxs =
        if (idxs.map (blockOutcome f blocks)).all (·.isSome) then
          some ((idxs.map (blockOutcome f blocks)).filterMap id)
        else none := by
  intro idxs
  induction idxs with
  | nil => rfl
  | cons i rest ih =>
    simp only [seqCollect, List.map_cons, List.all_cons, List.filterMap_cons, id]
    rcases h : blockOutcome f blocks i with _ | d
    · simp
    · simp only [Option.isSome_some, Bool.true_and]
      rw [ih]
      by_cases hall : ((rest.map (blockOutcome f blocks)).all (·.isSome)) = true
      · rw [if_pos hall, if_pos hall]
      · rw [if_neg hall, if_neg hall]

/-- C4: the sequential pipeline `process_dna_sequence` and the parallel
pipeline `process_dna_sequence_parallel` compute the same success flag and
the same output sequence for every input sequence and every per-block
processing behaviour (the oracle `f` stands for `process_block`, keyed by
chunk index: blocks are stored and concatenated by chunk index, not by
completion order, so the result does not depend on scheduling or worker
count). -/
theorem claim_C4_order_independence (f : Nat → List Char → Option (List Char))
    (s : List Char) : processSeq f s = processPar f s := by
  unfold processSeq processPar
  rw [seqCollect_eq]
  by_cases hall : (((List.range (splitIntoBlocks s 11).length).map
      (blockOutcome f (splitIntoBlocks s 11))).all (·.isSome)) = true
  · rw [if_pos hall, if_pos hall]
  · rw [if_neg hall, if_neg hall]

/-! ## Failure isolation -/

/-- C8 counterexample: the benchmark pipeline's returned statistics contain
no failure indication — a run whose first block fails (caught exception,
default-initialized slot) yields a `BenchmarkResult` identical to that of a
run in which every block succeeds.  The input is a concrete 22-base
sequence (two blocks). -/
theorem claim_C8_counterexample :
    (fun i => if i = 0 then none else some (⟨1, 1⟩ : BlockStats)) 0 = none ∧
    (∀ i : Nat, (fun i => if i = 0 then some (⟨0, 0⟩ : BlockStats) else some ⟨1, 1⟩) i ≠
      none) ∧
    benchResult (fun i => if i = 0 then none else some ⟨1, 1⟩)
      ['A', 'C', 'G', 'T', 'A', 'C', 'G', 'T', 'A', 'C', 'G',
       'A', 'C', 'G', 'T', 'A', 'C', 'G', 'T', 'A', 'C', 'G'] =
    benchResult (fun i => if i = 0 then some ⟨0, 0⟩ else some ⟨1, 1⟩)
      ['A', 'C', 'G', 'T', 'A', 'C', 'G', 'T', 'A', 'C', 'G',
       'A', 'C', 'G', 'T', 'A', 'C', 'G', 'T', 'A', 'C', 'G'] := by
  refine ⟨rfl, ?_, rfl⟩
  intro i
  by_cases hi : i = 0 <;> simp [hi]

/-- C8 (amended): in `process_dna_sequence` (part_006) a block failure is
caught, does not abort sibling blocks and does not escape the pipeline; the
returned flag is true exactly when zero blocks failed, and on failure the
output is cleared rather than returned partially.  In the benchmark pipeline
(part_009) a failing block is likewise caught and siblings are unaffected,
but the returned statistics are those of the same run with the failing
block's slot at its default zero value — no failure indication survives. -/
theorem claim_C8_failure_isolation (f : Nat → List Char → Option (List Char))
    (s : List Char) :
    ((processPar f s).1 = true ↔ ∀ i : Nat, i < (splitIntoBlocks s 11).length →
      (blockOutcome f (splitIntoBlocks s 11) i).isSome = true) ∧
    ((processPar f s).1 = false → (processPar f s).2 = []) ∧
    (∀ g : Nat → Option BlockStats,
      benchResult g s =
        benchResult (fun i => some (match g i with | some st => st | none => ⟨0, 0⟩)) s) := by
  refine ⟨?_, ?_, ?_⟩
  · unfold processPar
    split
    · rename_i hall
      simp only [true_iff]
      intro i hi
      have := List.all_eq_true.mp hall (blockOutcome f (splitIntoBlocks s 11) i)
        (List.mem_map.mpr ⟨i, List.mem_range.mpr hi, rfl⟩)
      exact this
    · rename_i hall
      simp only [Bool.false_eq_true, false_iff]
      intro hcon
      apply hall
      refine List.all_eq_true.mpr ?_
      intro x hx
      obtain ⟨i, hi, rfl⟩ := List.mem_map.mp hx
      exact hcon i (List.mem_range.mp hi)
  · unfold processPar
    split
    · intro h; simp at h
    · intro _; rfl
  · intro g
    unfold benchResult
    have : ((List.range (splitIntoBlocks s 11).length).map (fun i =>
        match g i with
        | some st => st
        | none => ⟨0, 0⟩)) =
        ((List.range (splitIntoBlocks s 11).length).map (fun i =>
          match some (match g i with | some st => st | none => (⟨0, 0⟩ : BlockStats)) with
          | some st => st
          | none => ⟨0, 0⟩)) := by
      refine List.map_congr_left ?_
      intro i _
      rcases g i with _ | st <;> rfl
    rw [← this]

/-- C8 witness: a pipeline whose every block fails returns an empty output. -/
theorem claim_C8_witness :
    (processPar (fun _ _ => none)
      ['A', 'C', 'G', 'T', 'A', 'C', 'G', 'T', 'A', 'C', 'G',
       'A', 'C', 'G', 'T', 'A', 'C', 'G', 'T', 'A', 'C', 'G']).2 = [] :=
  (claim_C8_failure_isolation (fun _ _ => none)
    ['A', 'C', 'G', 'T', 'A', 'C', 'G', 'T', 'A', 'C', 'G',
     'A', 'C', 'G', 'T', 'A', 'C', 'G', 'T', 'A', 'C', 'G']).2.1 (by rfl)

/-! ## The CUDA kernels are placeholders -/

/-- The copy loop writes the first `b` input characters (starting at index
`pre.length`) over the matching positions of the buffer. -/
theorem copyLoop_spec (inp : List Char) :
    ∀ (b : Nat) (pre suf : List Char), pre.length + b ≤ inp.length → b ≤ suf.length →
      (List.range' pre.length b).foldl (fun acc i => acc.set i (inp.getD i 'A'))
        (pre ++ suf) =
      pre ++ (inp.drop pre.length).take b ++ suf.drop b := by
  intro b
  induction b with
  | zero =>
    intro pre suf _ _
    simp
  | succ b ih =>
    intro pre suf hin hsuf
    cases suf with
    | nil => simp at hsuf
    | cons c suf' =>
      have hlt : pre.length < inp.length := by omega
      have hstep : (pre ++ c :: suf').set pre.length (inp.getD pre.length 'A') =
          (pre ++ [inp[pre.length]]) ++ suf' := by
        rw [List.set_append_right _ _ (le_refl _), Nat.sub_self,
          List.getD_eq_getElem inp 'A' hlt]
        simp
      rw [List.range'_succ, List.foldl_cons, hstep]
      have hpre1 : (pre ++ [inp[pre.length]]).length = pre.length + 1 := by simp
      have := ih (pre ++ [inp[pre.length]]) suf' (by simp; omega) (by simpa using hsuf)
      rw [hpre1] at this
      rw [this, List.drop_eq_getElem_cons hlt, List.take_succ_cons]
      simp

/-- The fill loop writes the constant 'N' over the tail of the buffer. -/
theorem fillLoop_spec :
    ∀ (b : Nat) (pre suf : List Char), suf.length = b →
      (List.range' pre.length b).foldl (fun acc i => acc.set i 'N') (pre ++ suf) =
        pre ++ List.replicate b 'N' := by
  intro b
  induction b with
  | zero =>
    intro pre suf hsuf
    have : suf = [] := List.length_eq_zero.mp hsuf
    subst this
    simp
  | succ b ih =>
    intro pre suf hsuf
    cases suf with
    | nil => simp at hsuf
    | cons c suf' =>
      have hstep : (pre ++ c :: suf').set pre.length 'N' = (pre ++ ['N']) ++ suf' := by
        rw [List.set_append_right _ _ (le_refl _), Nat.sub_self]
        simp
      rw [List.range'_succ, List.foldl_cons, hstep]
      have hpre1 : (pre ++ ['N']).length = pre.length + 1 := by simp
      have := ih (pre ++ ['N']) suf' (by simpa using hsuf)
      rw [hpre1] at this
      rw [this, List.append_assoc]
      rfl

/-- C9: the CUDA kernels are non-functional placeholders.  For every input
chunk, `encodeChunk` copies the k data characters unchanged into the first k
output positions and writes the filler character 'N' — which is not even a
DNA base accepted by the codec — into every parity position k..14 instead of
computing Reed-Solomon parity; and `decodeChunk` merely copies the k data
characters back, leaving the rest of its output buffer untouched and
performing no error correction. -/
theorem claim_C9_cuda_placeholder (input output : List Char) (k : Nat)
    (hk : k ≤ 15) (hin : k ≤ input.length) (hout : output.length = 15) :
    encodeChunk input output k = input.take k ++ List.replicate (15 - k) 'N' ∧
    decodeChunk input output k = input.take k ++ output.drop k ∧
    (charSym 'N').isSome = false := by
  have hcopy : (List.range k).foldl (fun acc i => acc.set i (input.getD i 'A')) output =
      input.take k ++ output.drop k := by
    have := copyLoop_spec input k [] output (by simpa using hin) (by omega)
    simpa [List.range_eq_range'] using this
  refine ⟨?_, hcopy, rfl⟩
  unfold encodeChunk
  rw [hcopy]
  have hlen : (input.take k).length = k := by
    rw [List.length_take]; omega
  have hdroplen : (output.drop k).length = 15 - k := by
    rw [List.length_drop, hout]
  have := fillLoop_spec (15 - k) (input.take k) (output.drop k) hdroplen
  rw [hlen] at this
  exact this

/-- C9 witness: a concrete 11-character chunk. -/
theorem claim_C9_witness :
    encodeChunk ['A', 'C', 'G', 'T', 'A', 'C', 'G', 'T', 'A', 'C', 'G']
        ['T', 'T', 'T', 'T', 'T', 'T', 'T', 'T', 'T', 'T', 'T', 'T', 'T', 'T', 'T'] 11 =
      ['A', 'C', 'G', 'T', 'A', 'C', 'G', 'T', 'A', 'C', 'G'] ++
        List.replicate 4 'N' ∧
    decodeChunk ['A', 'C', 'G', 'T', 'A', 'C', 'G', 'T', 'A', 'C', 'G']
        ['T', 'T', 'T', 'T', 'T', 'T', 'T', 'T', 'T', 'T', 'T', 'T', 'T', 'T', 'T'] 11 =
      ['A', 'C', 'G', 'T', 'A', 'C', 'G', 'T', 'A', 'C', 'G'] ++
        ['T', 'T', 'T', 'T'] ∧
    (charSym 'N').isSome = false :=
  claim_C9_cuda_placeholder ['A', 'C', 'G', 'T', 'A', 'C', 'G', 'T', 'A', 'C', 'G']
    ['T', 'T', 'T', 'T', 'T', 'T', 'T', 'T', 'T', 'T', 'T', 'T', 'T', 'T', 'T'] 11
    (by decide) (by decide) (by decide)

/-! ## Benchmark error accounting -/

/-- C10: the benchmark's error injector draws positions with replacement and
only forces each substitution to differ from the current base, so a draw
stream that hits the same position twice can restore the original base:
`introduce_errors(s, 2)` then differs from `s` at 0 < 2 positions, while the
per-block statistics still record `errors_introduced = 2` with 0 mismatches
counted as corrected, and the aggregate error-correction rate is 0 < 100%
even though the block decoded perfectly (the decoder returned the original
data). -/
theorem claim_C10_error_rate_accounting :
    introduceErrors ['A', 'C', 'G', 'T', 'A', 'C', 'G', 'T', 'A', 'C', 'G'] 2 [0, 1, 0, 0] =
      some ['A', 'C', 'G', 'T', 'A', 'C', 'G', 'T', 'A', 'C', 'G'] ∧
    countDiff ['A', 'C', 'G', 'T', 'A', 'C', 'G', 'T', 'A', 'C', 'G']
      ['A', 'C', 'G', 'T', 'A', 'C', 'G', 'T', 'A', 'C', 'G'] = 0 ∧
    benchBlockRun ['A', 'C', 'G', 'T', 'A', 'C', 'G', 'T', 'A', 'C', 'G'] 2 [0, 1, 0, 0] =
      some (⟨2, 0⟩, ['A', 'C', 'G', 'T', 'A', 'C', 'G', 'T', 'A', 'C', 'G']) ∧
    benchResult (fun _ => some ⟨2, 0⟩) ['A', 'C', 'G', 'T', 'A', 'C', 'G', 'T', 'A', 'C', 'G'] =
      ⟨1, 2, 0⟩ ∧
    errorCorrectionRate ⟨1, 2, 0⟩ < 1 := by
  refine ⟨rfl, rfl, rfl, rfl, ?_⟩
  norm_num [errorCorrectionRate]

end RSDna
